import Mathlib

/-!
Verification development for the Natural-Language-Translator VS Code
extension (repository futuretoons/Natural-Language-Translator).

Texts are modelled as `List Char` (called `Str` below).  JavaScript string
operations are embedded as functions on `Str`:

* the token regex `[\p{L}\p{M}\p{N}]+|[^\s\p{L}\p{M}\p{N}]+|\s+` (from
  `getTokenRegex` in translation.ts) is embedded as a run tokenizer driven
  by a character classifier: a JS global match of that alternation takes,
  at each position, the maximal run of the class of the current character
  (words first, then non-space symbols, then whitespace), so `String.match`
  with it is exactly run-length grouping by character class;
* `\p{L}\p{M}\p{N}` and `\s` are embedded by executable predicates
  `isWordChar` / `isSpaceChar` covering the character ranges this
  repository manipulates (ASCII, Latin-1 letters, and the Cyrillic,
  Devanagari and CJK blocks tested by `detectScript`); the structural
  theorems below only use that every character lands in exactly one of the
  three classes, which holds for the real Unicode tables as well;
* `toLowerCase`/`toUpperCase` are embedded by `lowerChar`/`upperChar`,
  the restriction of Unicode case mapping to ASCII; universal statements
  that depend on case mapping carry ASCII hypotheses.
-/

abbrev Str := List Char

/-- JS `\s` (the whitespace characters matched by the token regex). -/
def isSpaceChar (c : Char) : Bool :=
  c.toNat = 0x20 || c.toNat = 0x9 || c.toNat = 0xA || c.toNat = 0xD ||
  c.toNat = 0xB || c.toNat = 0xC ||
  c.toNat = 0xA0 || c.toNat = 0x1680 ||
  (0x2000 ≤ c.toNat && c.toNat ≤ 0x200A) ||
  c.toNat = 0x2028 || c.toNat = 0x2029 || c.toNat = 0x202F ||
  c.toNat = 0x205F || c.toNat = 0x3000 || c.toNat = 0xFEFF

/-- JS `[\p{L}\p{M}\p{N}]` (letters, marks, numbers), restricted to the
ranges this repository manipulates: ASCII alphanumerics, Latin-1 letters,
and the Cyrillic, Devanagari and CJK Unified Ideograph blocks.  Note that
`_` is connector punctuation, hence not a word character. -/
def isWordChar (c : Char) : Bool :=
  (0x61 ≤ c.toNat && c.toNat ≤ 0x7A) || (0x41 ≤ c.toNat && c.toNat ≤ 0x5A) ||
  (0x30 ≤ c.toNat && c.toNat ≤ 0x39) ||
  (0xC0 ≤ c.toNat && c.toNat ≤ 0xFF && c.toNat ≠ 0xD7 && c.toNat ≠ 0xF7) ||
  (0x400 ≤ c.toNat && c.toNat ≤ 0x4FF) ||
  (0x900 ≤ c.toNat && c.toNat ≤ 0x97F) ||
  (0x4E00 ≤ c.toNat && c.toNat ≤ 0x9FFF)

/-- The three alternatives of the token regex, as mutually exclusive and
exhaustive character classes (word run / non-space symbol run / whitespace
run).  Word wins first because `[\p{L}\p{M}\p{N}]+` is the first
alternative; the symbol class `[^\s\p{L}\p{M}\p{N}]` excludes the other
two by construction. -/
inductive TokClass where
  | word
  | symbol
  | space
deriving DecidableEq, Repr

def classOf (c : Char) : TokClass :=
  if isWordChar c then .word else if isSpaceChar c then .space else .symbol

/-- Take the maximal leading run of characters of class `k` (the greedy
`+` of the matching alternative). -/
def takeRun (k : TokClass) : Str → Str × Str
  | [] => ([], [])
  | c :: rest =>
    if classOf c = k then
      let p := takeRun k rest
      (c :: p.1, p.2)
    else ([], c :: rest)

theorem takeRun_append (k : TokClass) (s : Str) :
    (takeRun k s).1 ++ (takeRun k s).2 = s := by
  induction s with
  | nil => simp [takeRun]
  | cons c rest ih =>
    by_cases h : classOf c = k <;> simp [takeRun, h, ih]

theorem takeRun_snd_length (k : TokClass) (s : Str) :
    (takeRun k s).2.length ≤ s.length := by
  induction s with
  | nil => simp [takeRun]
  | cons c rest ih =>
    by_cases h : classOf c = k
    · simp only [takeRun, h, if_pos]
      simpa using Nat.le_succ_of_le ih
    · simp [takeRun, h]

theorem takeRun_fst_class (k : TokClass) (s : Str) :
    ∀ c ∈ (takeRun k s).1, classOf c = k := by
  induction s with
  | nil => simp [takeRun]
  | cons c rest ih =>
    by_cases h : classOf c = k
    · simp only [takeRun, h, if_pos]
      intro x hx
      simp at hx
      rcases hx with hx | hx
      · exact hx ▸ h
      · exact ih x hx
    · simp [takeRun, h]

theorem takeRun_snd_head (k : TokClass) (s : Str) :
    ∀ c, (takeRun k s).2 = c :: ((takeRun k s).2.tail) → classOf c ≠ k := by
  induction s with
  | nil => simp [takeRun]
  | cons c rest ih =>
    by_cases h : classOf c = k
    · simp only [takeRun, h, if_pos]
      exact ih
    · simp only [takeRun, h, if_neg, ite_false]
      intro x hx
      simp at hx
      intro hk
      exact h (by rw [hx]; exact hk)

/-- Worker for `tokenize` (structural fuel recursion so that concrete
runs reduce in the kernel; the fuel `s.length` always suffices because
each step consumes at least one character). -/
def tokGo : Nat → Str → List Str
  | _, [] => []
  | 0, _ :: _ => []
  | fuel + 1, c :: rest =>
    (c :: (takeRun (classOf c) rest).1) :: tokGo fuel (takeRun (classOf c) rest).2

/-- `tokenize text` embeds `text.match(getTokenRegex(script)) || []` from
translation.ts: the ordered list of maximal same-class runs. -/
def tokenize (s : Str) : List Str := tokGo s.length s

/-- Concatenation of a token list. -/
def joinStr (ts : List Str) : Str := ts.flatten

@[simp] theorem joinStr_nil : joinStr [] = [] := rfl
@[simp] theorem joinStr_cons (t : Str) (ts : List Str) :
    joinStr (t :: ts) = t ++ joinStr ts := rfl
@[simp] theorem joinStr_append (a b : List Str) :
    joinStr (a ++ b) = joinStr a ++ joinStr b := by
  simp [joinStr]

theorem tokGo_fuel (f1 : Nat) :
    ∀ (f2 : Nat) (s : Str), s.length ≤ f1 → s.length ≤ f2 →
      tokGo f1 s = tokGo f2 s := by
  induction f1 with
  | zero =>
    intro f2 s h1 _
    cases s with
    | nil => cases f2 <;> rfl
    | cons c rest => simp at h1
  | succ f ih =>
    intro f2 s h1 h2
    cases s with
    | nil => cases f2 <;> rfl
    | cons c rest =>
      cases f2 with
      | zero => simp at h2
      | succ g =>
        rw [tokGo, tokGo]
        have hlen := takeRun_snd_length (classOf c) rest
        simp only [List.length_cons] at h1 h2
        rw [ih g (takeRun (classOf c) rest).2 (by omega) (by omega)]

theorem tokenize_cons (c : Char) (rest : Str) :
    tokenize (c :: rest) =
      (c :: (takeRun (classOf c) rest).1) :: tokenize (takeRun (classOf c) rest).2 := by
  rw [tokenize, tokenize]
  simp only [List.length_cons, tokGo]
  have hlen := takeRun_snd_length (classOf c) rest
  rw [tokGo_fuel rest.length _ _ hlen le_rfl]

theorem tokenize_join (s : Str) : joinStr (tokenize s) = s := by
  generalize hn : s.length = n
  induction n using Nat.strong_induction_on generalizing s with
  | _ n ih =>
    cases s with
    | nil => simp [tokenize, tokGo]
    | cons c rest =>
      have hlen : (takeRun (classOf c) rest).2.length < n := by
        have := takeRun_snd_length (classOf c) rest
        simp only [List.length_cons] at hn
        omega
      have hrec := ih _ hlen (takeRun (classOf c) rest).2 rfl
      rw [tokenize_cons]
      simp only [joinStr_cons, hrec, List.cons_append]
      rw [takeRun_append]

/-- Structural facts about tokens: nonempty, single class, and adjacent
tokens have different classes. -/
def tokenWF : List Str → Prop
  | [] => True
  | t :: ts =>
    t ≠ [] ∧ (∀ c ∈ t, classOf c = classOf (t.headD ' ')) ∧
    (match ts with
     | [] => True
     | u :: _ => classOf (u.headD ' ') ≠ classOf (t.headD ' ')) ∧
    tokenWF ts

theorem tokenize_wf (s : Str) : tokenWF (tokenize s) := by
  generalize hn : s.length = n
  induction n using Nat.strong_induction_on generalizing s with
  | _ n ih =>
    cases s with
    | nil => simp [tokenize, tokGo, tokenWF]
    | cons c rest =>
      have hlen : (takeRun (classOf c) rest).2.length < n := by
        have := takeRun_snd_length (classOf c) rest
        simp [List.length_cons] at hn
        omega
      have hrec := ih _ hlen (takeRun (classOf c) rest).2 rfl
      rw [tokenize_cons]
      refine ⟨by simp, ?_, ?_, hrec⟩
      · intro x hx
        simp at hx
        rcases hx with hx | hx
        · simp [hx]
        · simp [takeRun_fst_class (classOf c) rest x hx]
      · cases hrest : (takeRun (classOf c) rest).2 with
        | nil => simp [tokenize, tokGo]
        | cons d tl =>
          rw [tokenize_cons]
          have hd : classOf d ≠ classOf c := by
            have := takeRun_snd_head (classOf c) rest d
            rw [hrest] at this
            exact this (by simp)
          simpa using hd

/-! ### Case mapping, script detection, case matching -/

/-- `toLowerCase`, restricted to ASCII (see file header). -/
def lowerChar (c : Char) : Char :=
  if 0x41 ≤ c.toNat ∧ c.toNat ≤ 0x5A then Char.ofNat (c.toNat + 32) else c

/-- `toUpperCase`, restricted to ASCII. -/
def upperChar (c : Char) : Char :=
  if 0x61 ≤ c.toNat ∧ c.toNat ≤ 0x7A then Char.ofNat (c.toNat - 32) else c

def lowerStr (s : Str) : Str := s.map lowerChar

/-- `^[A-Z]` / `^[a-z]` character tests. -/
def isUpperAZ (c : Char) : Bool := 0x41 ≤ c.toNat && c.toNat ≤ 0x5A
def isLowerAZ (c : Char) : Bool := 0x61 ≤ c.toNat && c.toNat ≤ 0x7A

inductive Script where
  | latin
  | cyrillic
  | devanagari
  | logographic
deriving DecidableEq, Repr

/-- `detectScript` from translation.ts: fixed priority order of range
tests (CJK > Devanagari > Cyrillic > default latin). -/
def detectScript (text : Str) : Script :=
  if text.any (fun c => 0x4E00 ≤ c.toNat && c.toNat ≤ 0x9FFF) then .logographic
  else if text.any (fun c => 0x900 ≤ c.toNat && c.toNat ≤ 0x97F) then .devanagari
  else if text.any (fun c =>
      (0x430 ≤ c.toNat && c.toNat ≤ 0x44F) || (0x410 ≤ c.toNat && c.toNat ≤ 0x42F) ||
      c.toNat = 0x451 || c.toNat = 0x401) then .cyrillic
  else .latin

/-- `matchCase(source, target)` from translation.ts: transfer the case of
the first letter from source to target (ASCII letter tests `^[A-Z]`,
`^[a-z]`). -/
def matchCase (source target : Str) : Str :=
  match source, target with
  | s :: _, t :: ts =>
    if isUpperAZ s ∧ isLowerAZ t then upperChar t :: ts
    else if isLowerAZ s ∧ isUpperAZ t then lowerChar t :: ts
    else t :: ts
  | _, t => t

/-! ### Case-insensitive occurrence counting

`(text.match(new RegExp(escapedIdBase, 'gi')) || []).length` counts the
non-overlapping, left-to-right, case-insensitive occurrences of the
literal pattern (all regex metacharacters are escaped before the RegExp
is built).  An empty pattern matches once at every position and once at
the end; word tokens are never empty so that case is never exercised. -/

def countGo (pat : Str) : Nat → Str → Nat
  | _, [] => 0
  | 0, _ :: _ => 0
  | fuel + 1, c :: rest =>
    if pat.length ≤ (c :: rest).length ∧
        lowerStr (List.take pat.length (c :: rest)) = lowerStr pat
    then 1 + countGo pat fuel (List.drop pat.length (c :: rest))
    else countGo pat fuel rest

def countCI (pat s : Str) : Nat :=
  match pat with
  | [] => s.length + 1
  | _ :: _ => countGo pat s.length s

/-! ### Decimal printing of the occurrence index

`${occurrences + 1}` interpolates a Nat in decimal.  `natToStr` is a
structural-fuel decimal printer (kernel-reducible, unlike well-founded
alternatives); `parseDigits` is its inverse, used to prove injectivity. -/

def digitChar (n : Nat) : Char := Char.ofNat (48 + n)

def natChars : Nat → Nat → Str
  | 0, _ => []
  | _ + 1, 0 => []
  | fuel + 1, n + 1 => natChars fuel ((n + 1) / 10) ++ [digitChar ((n + 1) % 10)]

def natToStr (n : Nat) : Str := if n = 0 then ['0'] else natChars n n

def parseDigits (s : Str) : Nat := s.foldl (fun acc c => acc * 10 + (c.toNat - 48)) 0

theorem parseDigits_append_one (s : Str) (c : Char) :
    parseDigits (s ++ [c]) = parseDigits s * 10 + (c.toNat - 48) := by
  simp [parseDigits, List.foldl_append]

theorem digitChar_toNat {d : Nat} (h : d < 10) :
    (digitChar d).toNat = 48 + d := by
  interval_cases d <;> decide

theorem digitChar_bounds {d : Nat} (h : d < 10) :
    '0' ≤ digitChar d ∧ digitChar d ≤ '9' := by
  interval_cases d <;> exact ⟨by decide, by decide⟩

theorem parseDigits_natChars (fuel n : Nat) (h : n ≤ fuel) :
    parseDigits (natChars fuel n) = n := by
  induction fuel generalizing n with
  | zero =>
    interval_cases n
    simp [natChars, parseDigits]
  | succ f ih =>
    cases n with
    | zero => simp [natChars, parseDigits]
    | succ m =>
      rw [natChars, parseDigits_append_one]
      have hdiv : (m + 1) / 10 ≤ f := by omega
      rw [ih _ hdiv]
      have hlt : (m + 1) % 10 < 10 := Nat.mod_lt _ (by norm_num)
      rw [digitChar_toNat hlt]
      omega

theorem natToStr_inj {a b : Nat} (h : natToStr a = natToStr b) : a = b := by
  have ha := parseDigits_natChars a a le_rfl
  have hb := parseDigits_natChars b b le_rfl
  have hz : parseDigits ['0'] = 0 := by decide
  by_cases h0 : a = 0 <;> by_cases h1 : b = 0
  · omega
  · exfalso
    rw [natToStr, natToStr, if_pos h0, if_neg h1] at h
    rw [← h, hz] at hb
    omega
  · exfalso
    rw [natToStr, natToStr, if_neg h0, if_pos h1] at h
    rw [h, hz] at ha
    omega
  · rw [natToStr, natToStr, if_neg h0, if_neg h1] at h
    rw [← ha, ← hb, h]

theorem natChars_digits (fuel n : Nat) :
    ∀ c ∈ natChars fuel n, '0' ≤ c ∧ c ≤ '9' := by
  induction fuel generalizing n with
  | zero => simp [natChars]
  | succ f ih =>
    cases n with
    | zero => simp [natChars]
    | succ m =>
      rw [natChars]
      intro c hc
      rw [List.mem_append] at hc
      rcases hc with hc | hc
      · exact ih _ c hc
      · simp at hc
        subst hc
        exact digitChar_bounds (Nat.mod_lt _ (by norm_num))

theorem natToStr_digits (n : Nat) : ∀ c ∈ natToStr n, '0' ≤ c ∧ c ≤ '9' := by
  by_cases h : n = 0
  · rw [natToStr, if_pos h]
    intro c hc
    simp at hc
    subst hc
    exact ⟨by decide, by decide⟩
  · rw [natToStr, if_neg h]
    exact natChars_digits n n

/-- `${idBase}_${occurrences + 1}${isTypeAnnotation ? '_type' : ''}` -/
def mkId (base : Str) (n : Nat) (ty : Bool) : Str :=
  base ++ '_' :: natToStr n ++ (if ty then ['_', 't', 'y', 'p', 'e'] else [])

theorem countCI_zero (p : Char) (ps : Str) : countCI (p :: ps) [] = 0 := rfl

theorem countGo_fuel_eq (p : Char) (ps : Str) (f1 : Nat) :
    ∀ (f2 : Nat) (s : Str), s.length ≤ f1 → s.length ≤ f2 →
      countGo (p :: ps) f1 s = countGo (p :: ps) f2 s := by
  induction f1 with
  | zero =>
    intro f2 s h1 _
    cases s with
    | nil => cases f2 <;> rfl
    | cons c rest => simp at h1
  | succ f ih =>
    intro f2 s h1 h2
    cases s with
    | nil => cases f2 <;> rfl
    | cons c rest =>
      cases f2 with
      | zero => simp at h2
      | succ g =>
        rw [countGo, countGo]
        simp only [List.length_cons] at h1 h2
        by_cases hc : (p :: ps).length ≤ (c :: rest).length ∧
            lowerStr (List.take (p :: ps).length (c :: rest)) = lowerStr (p :: ps)
        · rw [if_pos hc, if_pos hc,
            ih g (List.drop (p :: ps).length (c :: rest))
              (by simp only [List.length_drop, List.length_cons]; omega)
              (by simp only [List.length_drop, List.length_cons]; omega)]
        · rw [if_neg hc, if_neg hc, ih g rest (by omega) (by omega)]

theorem countCI_cons (p c : Char) (ps rest : Str) :
    countCI (p :: ps) (c :: rest) =
      if (p :: ps).length ≤ (c :: rest).length ∧
          lowerStr (List.take (p :: ps).length (c :: rest)) = lowerStr (p :: ps)
      then 1 + countCI (p :: ps) (List.drop (p :: ps).length (c :: rest))
      else countCI (p :: ps) rest := by
  have h1 : countCI (p :: ps) (c :: rest) =
      if (p :: ps).length ≤ (c :: rest).length ∧
          lowerStr (List.take (p :: ps).length (c :: rest)) = lowerStr (p :: ps)
      then 1 + countGo (p :: ps) rest.length (List.drop (p :: ps).length (c :: rest))
      else countGo (p :: ps) rest.length rest := rfl
  rw [h1]
  by_cases hc : (p :: ps).length ≤ (c :: rest).length ∧
      lowerStr (List.take (p :: ps).length (c :: rest)) = lowerStr (p :: ps)
  · rw [if_pos hc, if_pos hc]
    congr 1
    have hd : (List.drop (p :: ps).length (c :: rest)).length ≤ rest.length := by
      simp only [List.length_drop, List.length_cons]
      omega
    exact countGo_fuel_eq p ps rest.length _ _ hd le_rfl
  · rw [if_neg hc, if_neg hc]
    rfl

theorem take_app_le {α : Type} (n : Nat) (a b : List α) (h : n ≤ a.length) :
    (a ++ b).take n = a.take n := by
  rw [List.take_append_eq_append_take]
  have h0 : n - a.length = 0 := by omega
  simp [h0]

theorem drop_app_le {α : Type} (n : Nat) (a b : List α) (h : n ≤ a.length) :
    (a ++ b).drop n = a.drop n ++ b := by
  rw [List.drop_append_eq_append_drop]
  have h0 : n - a.length = 0 := by omega
  simp [h0]

theorem countCI_short (p : Char) (ps s : Str) (h : s.length < (p :: ps).length) :
    countCI (p :: ps) s = 0 := by
  induction s with
  | nil => exact countCI_zero p ps
  | cons c rest ih =>
    rw [countCI_cons]
    have hc : ¬((p :: ps).length ≤ (c :: rest).length ∧
        lowerStr (List.take (p :: ps).length (c :: rest)) = lowerStr (p :: ps)) := by
      intro hx
      omega
    rw [if_neg hc]
    exact ih (by simp at h ⊢; omega)

/-- Counting occurrences in a left-extended text never loses matches
(right extension of the scanned text is monotone). -/
theorem countCI_mono (p : Char) (ps u v : Str) :
    countCI (p :: ps) u ≤ countCI (p :: ps) (u ++ v) := by
  cases u with
  | nil => simp [countCI_zero]
  | cons c rest =>
    rw [List.cons_append, countCI_cons, countCI_cons]
    by_cases h : (p :: ps).length ≤ (c :: rest).length ∧
        lowerStr (List.take (p :: ps).length (c :: rest)) = lowerStr (p :: ps)
    · have hlen : (p :: ps).length ≤ (c :: (rest ++ v)).length := by
        simp at h ⊢
        omega
      have heq : (c :: (rest ++ v)) = (c :: rest) ++ v := by simp
      have htk : lowerStr (List.take (p :: ps).length (c :: (rest ++ v))) =
          lowerStr (p :: ps) := by
        rw [heq, take_app_le _ _ _ h.1, h.2]
      rw [if_pos h, if_pos ⟨hlen, htk⟩]
      have hd : List.drop (p :: ps).length (c :: (rest ++ v)) =
          (List.drop (p :: ps).length (c :: rest)) ++ v := by
        rw [heq, drop_app_le _ _ _ h.1]
      rw [hd]
      exact Nat.add_le_add_left (countCI_mono p ps _ v) 1
    · rw [if_neg h]
      by_cases h2 : (p :: ps).length ≤ (c :: (rest ++ v)).length ∧
          lowerStr (List.take (p :: ps).length (c :: (rest ++ v))) = lowerStr (p :: ps)
      · rw [if_pos h2]
        have hlong : (c :: rest).length < (p :: ps).length := by
          by_contra hle
          push_neg at hle
          apply h
          refine ⟨hle, ?_⟩
          have heq : (c :: (rest ++ v)) = (c :: rest) ++ v := by simp
          rw [heq, take_app_le _ _ _ hle] at h2
          exact h2.2
        have hz : countCI (p :: ps) rest = 0 :=
          countCI_short p ps rest (by simp at hlong ⊢; omega)
        rw [hz]
        omega
      · rw [if_neg h2]
        exact countCI_mono p ps rest v
termination_by u.length
decreasing_by
  · simp only [List.length_drop, List.length_cons]
    omega
  · simp only [List.length_cons]
    omega

/-- Appending a case-insensitive copy of the pattern strictly increases
the count. -/
theorem countCI_append_self (p : Char) (ps u w : Str)
    (hw : lowerStr w = lowerStr (p :: ps)) :
    countCI (p :: ps) u + 1 ≤ countCI (p :: ps) (u ++ w) := by
  cases u with
  | nil =>
    have hlen : w.length = (p :: ps).length := by
      have := congrArg List.length hw
      simpa [lowerStr] using this
    cases w with
    | nil => simp at hlen
    | cons d ds =>
      rw [List.nil_append, countCI_cons]
      have hc : (p :: ps).length ≤ (d :: ds).length ∧
          lowerStr (List.take (p :: ps).length (d :: ds)) = lowerStr (p :: ps) := by
        refine ⟨by omega, ?_⟩
        rw [← hlen, List.take_length]
        exact hw
      rw [if_pos hc, countCI_zero]
      have : List.drop (p :: ps).length (d :: ds) = [] := by
        apply List.drop_eq_nil_of_le
        omega
      rw [this, countCI_zero]
  | cons c rest =>
    rw [List.cons_append, countCI_cons, countCI_cons]
    by_cases h : (p :: ps).length ≤ (c :: rest).length ∧
        lowerStr (List.take (p :: ps).length (c :: rest)) = lowerStr (p :: ps)
    · have hlen : (p :: ps).length ≤ (c :: (rest ++ w)).length := by
        simp at h ⊢
        omega
      have heq : (c :: (rest ++ w)) = (c :: rest) ++ w := by simp
      have htk : lowerStr (List.take (p :: ps).length (c :: (rest ++ w))) =
          lowerStr (p :: ps) := by
        rw [heq, take_app_le _ _ _ h.1, h.2]
      rw [if_pos h, if_pos ⟨hlen, htk⟩]
      have hd : List.drop (p :: ps).length (c :: (rest ++ w)) =
          (List.drop (p :: ps).length (c :: rest)) ++ w := by
        rw [heq, drop_app_le _ _ _ h.1]
      rw [hd]
      have := countCI_append_self p ps (List.drop (p :: ps).length (c :: rest)) w hw
      omega
    · rw [if_neg h]
      by_cases h2 : (p :: ps).length ≤ (c :: (rest ++ w)).length ∧
          lowerStr (List.take (p :: ps).length (c :: (rest ++ w))) = lowerStr (p :: ps)
      · rw [if_pos h2]
        have hlong : (c :: rest).length < (p :: ps).length := by
          by_contra hle
          push_neg at hle
          apply h
          refine ⟨hle, ?_⟩
          have heq : (c :: (rest ++ w)) = (c :: rest) ++ w := by simp
          rw [heq, take_app_le _ _ _ hle] at h2
          exact h2.2
        have hz : countCI (p :: ps) rest = 0 :=
          countCI_short p ps rest (by simp at hlong ⊢; omega)
        rw [hz]
        omega
      · rw [if_neg h2]
        exact countCI_append_self p ps rest w hw
termination_by u.length
decreasing_by
  · simp only [List.length_drop, List.length_cons]
    omega
  · simp only [List.length_cons]
    omega

/-! ### Identifier injectivity -/

theorem underscore_split {b b' u v : Str} (hb : '_' ∉ b) (hb' : '_' ∉ b')
    (h : b ++ '_' :: u = b' ++ '_' :: v) : b = b' ∧ u = v := by
  induction b generalizing b' with
  | nil =>
    cases b' with
    | nil =>
      simp at h
      exact ⟨rfl, h⟩
    | cons x xs =>
      exfalso
      simp at h
      exact hb' (by simp [← h.1])
  | cons a as ih =>
    cases b' with
    | nil =>
      exfalso
      simp at h
      exact hb (by simp [h.1])
    | cons x xs =>
      simp at h
      obtain ⟨hax, hrest⟩ := h
      have := ih (fun hm => hb (List.mem_cons_of_mem a hm))
        (fun hm => hb' (List.mem_cons_of_mem x hm)) hrest
      exact ⟨by rw [hax, this.1], this.2⟩

theorem natToStr_no_underscore (n : Nat) : '_' ∉ natToStr n := by
  intro hm
  have := natToStr_digits n '_' hm
  have : ('_' : Char) ≤ '9' := this.2
  exact absurd this (by decide)

theorem mkId_inj {b b' : Str} {n n' : Nat} {ty ty' : Bool}
    (hb : '_' ∉ b) (hb' : '_' ∉ b')
    (h : mkId b n ty = mkId b' n' ty') : b = b' ∧ n = n' ∧ ty = ty' := by
  unfold mkId at h
  have h' : b ++ '_' :: (natToStr n ++ (if ty then ['_', 't', 'y', 'p', 'e'] else [])) =
      b' ++ '_' :: (natToStr n' ++ (if ty' then ['_', 't', 'y', 'p', 'e'] else [])) := by
    simpa [List.append_assoc] using h
  have h2 := underscore_split hb hb' h'
  obtain ⟨hbe, hrest⟩ := h2
  refine ⟨hbe, ?_⟩
  cases ty <;> cases ty' <;> simp at hrest
  · exact ⟨natToStr_inj hrest, rfl⟩
  · exfalso
    have hm : '_' ∈ natToStr n := by
      rw [hrest]
      simp
    exact natToStr_no_underscore n hm
  · exfalso
    have hm : '_' ∈ natToStr n' := by
      rw [← hrest]
      simp
    exact natToStr_no_underscore n' hm
  · exact ⟨natToStr_inj hrest, rfl⟩

/-! ### Compound segmentation (latin): `splitCompound` -/

def takeLowerRun : Str → Str × Str
  | [] => ([], [])
  | c :: rest =>
    if isLowerAZ c then
      let p := takeLowerRun rest
      (c :: p.1, p.2)
    else ([], c :: rest)

theorem takeLowerRun_append (s : Str) :
    (takeLowerRun s).1 ++ (takeLowerRun s).2 = s := by
  induction s with
  | nil => simp [takeLowerRun]
  | cons c rest ih =>
    by_cases h : isLowerAZ c <;> simp [takeLowerRun, h, ih]

theorem takeLowerRun_snd_length (s : Str) :
    (takeLowerRun s).2.length ≤ s.length := by
  induction s with
  | nil => simp [takeLowerRun]
  | cons c rest ih =>
    by_cases h : isLowerAZ c
    · simp only [takeLowerRun, h, if_pos]
      simpa using Nat.le_succ_of_le ih
    · simp [takeLowerRun, h]

theorem takeLowerRun_fst_lower (s : Str) :
    ∀ c ∈ (takeLowerRun s).1, isLowerAZ c := by
  induction s with
  | nil => simp [takeLowerRun]
  | cons c rest ih =>
    by_cases h : isLowerAZ c
    · simp only [takeLowerRun, h, if_pos]
      intro x hx
      simp at hx
      rcases hx with hx | hx
      · exact hx ▸ h
      · exact ih x hx
    · simp [takeLowerRun, h]

theorem takeLowerRun_all_lower (s : Str) (h : ∀ c ∈ s, isLowerAZ c) :
    takeLowerRun s = (s, []) := by
  induction s with
  | nil => simp [takeLowerRun]
  | cons c rest ih =>
    have hc : isLowerAZ c := h c (by simp)
    rw [takeLowerRun, if_pos hc, ih (fun x hx => h x (by simp [hx]))]

/-- The matches of `/[A-Z][a-z]*|[a-z]+/g`, scanning left to right: at an
uppercase letter, take it plus the maximal lowercase run; at a lowercase
letter, take the maximal lowercase run; any other character produces no
match and the scan advances past it.  Structural fuel recursion, with
`s.length` as always-sufficient fuel. -/
def splitGo : Nat → Str → List Str
  | _, [] => []
  | 0, _ :: _ => []
  | fuel + 1, c :: rest =>
    if isUpperAZ c || isLowerAZ c then
      (c :: (takeLowerRun rest).1) :: splitGo fuel (takeLowerRun rest).2
    else splitGo fuel rest

def splitCompoundAux (s : Str) : List Str := splitGo s.length s

theorem splitGo_fuel (f1 : Nat) :
    ∀ (f2 : Nat) (s : Str), s.length ≤ f1 → s.length ≤ f2 →
      splitGo f1 s = splitGo f2 s := by
  induction f1 with
  | zero =>
    intro f2 s h1 _
    cases s with
    | nil => cases f2 <;> rfl
    | cons c rest => simp at h1
  | succ f ih =>
    intro f2 s h1 h2
    cases s with
    | nil => cases f2 <;> rfl
    | cons c rest =>
      cases f2 with
      | zero => simp at h2
      | succ g =>
        rw [splitGo, splitGo]
        simp only [List.length_cons] at h1 h2
        have hrun := takeLowerRun_snd_length rest
        by_cases hc : (isUpperAZ c || isLowerAZ c) = true
        · rw [if_pos hc, if_pos hc, ih g (takeLowerRun rest).2 (by omega) (by omega)]
        · rw [if_neg hc, if_neg hc, ih g rest (by omega) (by omega)]

/-- `splitCompound` from translation.ts:
`term.match(/[A-Z][a-z]*|[a-z]+/g) || [term]` followed by
`.filter(Boolean)` (which removes empty strings; a JS `match` result
never contains one, the `|| [term]` branch can). -/
def splitCompound (term : Str) : List Str :=
  let parts := splitCompoundAux term
  (if parts = [] then [term] else parts).filter (fun t => decide (t ≠ []))

theorem splitCompoundAux_all_lower (s : Str) (hne : s ≠ [])
    (h : ∀ c ∈ s, isLowerAZ c) : splitCompoundAux s = [s] := by
  cases s with
  | nil => exact absurd rfl hne
  | cons c rest =>
    have hc : isLowerAZ c := h c (by simp)
    have h1 : splitCompoundAux (c :: rest) =
        if isUpperAZ c || isLowerAZ c then
          (c :: (takeLowerRun rest).1) :: splitGo rest.length (takeLowerRun rest).2
        else splitGo rest.length rest := rfl
    rw [h1, if_pos (by simp [hc])]
    rw [takeLowerRun_all_lower rest (fun x hx => h x (by simp [hx]))]
    cases rest <;> rfl

/-- A token consisting only of lowercase ASCII letters segments into a
single part (hence never registers a compound). -/
theorem splitCompound_all_lower (t : Str) (hne : t ≠ [])
    (h : ∀ c ∈ t, isLowerAZ c) : splitCompound t = [t] := by
  rw [splitCompound]
  simp only [splitCompoundAux_all_lower t hne h]
  simp [hne]

/-! ### Greedy dictionary-based segmenters (logographic / devanagari /
cyrillic) -/

/-- Inner loop of the segmenters: try lengths `maxLen, maxLen-1, ..., 1`
and return the first length whose prefix is a dictionary key (`0` when
none is). -/
def dictMatchLen (keys : List Str) (rest : Str) : Nat → Nat
  | 0 => 0
  | len + 1 =>
    if List.take (len + 1) rest ∈ keys then len + 1
    else dictMatchLen keys rest len

theorem dictMatchLen_le (keys : List Str) (rest : Str) (m : Nat) :
    dictMatchLen keys rest m ≤ m := by
  induction m with
  | zero => simp [dictMatchLen]
  | succ len ih =>
    rw [dictMatchLen]
    by_cases h : List.take (len + 1) rest ∈ keys
    · simp [h]
    · rw [if_neg h]
      omega

/-- Length chosen at one position: longest dictionary prefix, capped at
4 characters in the logographic case, else 0. -/
def segPick (keys : List Str) (capped : Bool) (s : Str) : Nat :=
  dictMatchLen keys s (if capped then min s.length 4 else s.length)

/-- Common loop of `segmentLogographic`, `segmentDevanagari` and
`segmentCyrillic` (identical in the source except for the length cap of 4
in the logographic case): at each position take the longest dictionary
prefix, else emit a single character. -/
def segRun (keys : List Str) (capped : Bool) : Nat → Str → List Str
  | _, [] => []
  | 0, _ :: _ => []
  | fuel + 1, c :: rest =>
    if segPick keys capped (c :: rest) = 0 then [c] :: segRun keys capped fuel rest
    else
      List.take (segPick keys capped (c :: rest)) (c :: rest) ::
        segRun keys capped fuel (List.drop (segPick keys capped (c :: rest)) (c :: rest))

def segGo (keys : List Str) (capped : Bool) (s : Str) : List Str :=
  segRun keys capped s.length s

/-- `segmentLogographic` from translation.ts (length cap 4). -/
def segmentLogographic (keys : List Str) (text : Str) : List Str :=
  segGo keys true text

/-- `segmentDevanagari` from translation.ts (uncapped greedy match). -/
def segmentDevanagari (keys : List Str) (text : Str) : List Str :=
  segGo keys false text

/-- `segmentCyrillic` from translation.ts (uncapped greedy match). -/
def segmentCyrillic (keys : List Str) (text : Str) : List Str :=
  segGo keys false text

theorem segRun_fuel (keys : List Str) (capped : Bool) (f1 : Nat) :
    ∀ (f2 : Nat) (s : Str), s.length ≤ f1 → s.length ≤ f2 →
      segRun keys capped f1 s = segRun keys capped f2 s := by
  induction f1 with
  | zero =>
    intro f2 s h1 _
    cases s with
    | nil => cases f2 <;> rfl
    | cons c rest => simp at h1
  | succ f ih =>
    intro f2 s h1 h2
    cases s with
    | nil => cases f2 <;> rfl
    | cons c rest =>
      cases f2 with
      | zero => simp at h2
      | succ g =>
        rw [segRun, segRun]
        simp only [List.length_cons] at h1 h2
        by_cases h0 : segPick keys capped (c :: rest) = 0
        · rw [if_pos h0, if_pos h0, ih g rest (by omega) (by omega)]
        · rw [if_neg h0, if_neg h0,
            ih g (List.drop (segPick keys capped (c :: rest)) (c :: rest))
              (by simp only [List.length_drop, List.length_cons]; omega)
              (by simp only [List.length_drop, List.length_cons]; omega)]

theorem segGo_cons (keys : List Str) (capped : Bool) (c : Char) (rest : Str) :
    segGo keys capped (c :: rest) =
      if segPick keys capped (c :: rest) = 0 then [c] :: segGo keys capped rest
      else
        List.take (segPick keys capped (c :: rest)) (c :: rest) ::
          segGo keys capped (List.drop (segPick keys capped (c :: rest)) (c :: rest)) := by
  have h1 : segGo keys capped (c :: rest) =
      if segPick keys capped (c :: rest) = 0 then [c] :: segRun keys capped rest.length rest
      else
        List.take (segPick keys capped (c :: rest)) (c :: rest) ::
          segRun keys capped rest.length
            (List.drop (segPick keys capped (c :: rest)) (c :: rest)) := rfl
  rw [h1]
  by_cases h0 : segPick keys capped (c :: rest) = 0
  · rw [if_pos h0, if_pos h0]
    rfl
  · rw [if_neg h0, if_neg h0]
    have hd : (List.drop (segPick keys capped (c :: rest)) (c :: rest)).length ≤
        rest.length := by
      simp only [List.length_drop, List.length_cons]
      omega
    rw [segRun_fuel keys capped rest.length _ _ hd le_rfl]
    rfl

theorem segGo_join (keys : List Str) (capped : Bool) (s : Str) :
    joinStr (segGo keys capped s) = s := by
  generalize hn : s.length = n
  induction n using Nat.strong_induction_on generalizing s with
  | _ n ih =>
    cases s with
    | nil => simp [segGo, segRun]
    | cons c rest =>
      rw [segGo_cons]
      by_cases h0 : segPick keys capped (c :: rest) = 0
      · rw [if_pos h0]
        have hrec := ih rest.length (by simp at hn ⊢; omega) rest rfl
        rw [joinStr_cons, hrec]
        rfl
      · rw [if_neg h0]
        have hlen : (List.drop (segPick keys capped (c :: rest)) (c :: rest)).length < n := by
          simp only [List.length_drop, List.length_cons]
          simp only [List.length_cons] at hn
          omega
        have hrec := ih _ hlen (List.drop (segPick keys capped (c :: rest)) (c :: rest)) rfl
        simp only [joinStr_cons, hrec]
        exact List.take_append_drop _ (c :: rest)

theorem segGo_nonempty (keys : List Str) (capped : Bool) (s : Str) :
    ∀ t ∈ segGo keys capped s, t ≠ [] := by
  generalize hn : s.length = n
  induction n using Nat.strong_induction_on generalizing s with
  | _ n ih =>
    cases s with
    | nil => simp [segGo, segRun]
    | cons c rest =>
      rw [segGo_cons]
      by_cases h0 : segPick keys capped (c :: rest) = 0
      · rw [if_pos h0]
        intro t ht
        simp at ht
        rcases ht with ht | ht
        · simp [ht]
        · exact ih rest.length (by simp at hn ⊢; omega) rest rfl t ht
      · rw [if_neg h0]
        intro t ht
        simp at ht
        rcases ht with ht | ht
        · subst ht
          simp only [ne_eq, List.take_eq_nil_iff]
          push_neg
          exact ⟨h0, by simp⟩
        · have hlen : (List.drop (segPick keys capped (c :: rest)) (c :: rest)).length < n := by
            simp only [List.length_drop, List.length_cons]
            simp only [List.length_cons] at hn
            omega
          exact ih _ hlen (List.drop (segPick keys capped (c :: rest)) (c :: rest)) rfl t ht

/-! ### The term/compound store

`workspaceState` holds flat keys `original_<id>`, `translated_<id>`,
`position_<id>`, `compoundIds_<id>`, `compound_<cid>_original|translated|
parts|position`, `translated_to_compound_<t>` and `compoundCounter`.  The
embedding groups the four keys of a term (resp. compound) into a record
and keeps each family as an association list in insertion order (the
iteration order of `workspaceState.keys()` / `Object.entries`). -/

structure TermRec where
  original : Str
  translated : Str
  position : Nat
  compoundIds : List Str
deriving DecidableEq, Repr

structure CompoundRec where
  original : Str
  translated : Str
  parts : List Str
  position : Nat
deriving DecidableEq, Repr

structure Store where
  terms : List (Str × TermRec)
  compounds : List (Str × CompoundRec)
  transToCompound : List (Str × Str)
  compoundCounter : Nat
deriving DecidableEq, Repr

def emptyStore : Store := ⟨[], [], [], 0⟩

def lookupA {β : Type} : List (Str × β) → Str → Option β
  | [], _ => none
  | (k, v) :: rest, key => if k = key then some v else lookupA rest key


/-- JS object write: overwrite the key in place if present (preserving
its insertion-order slot), else append at the end. -/
def updA {β : Type} : List (Str × β) → Str → β → List (Str × β)
  | [], key, v => [(key, v)]
  | p :: rest, key, v =>
    if p.1 = key then (key, v) :: rest else p :: updA rest key v

/-- JS `update(key, undefined)`: delete the key. -/
def delA {β : Type} (l : List (Str × β)) (key : Str) : List (Str × β) :=
  l.filter (fun p => decide (p.1 ≠ key))

theorem lookupA_updA_self {β : Type} (l : List (Str × β)) (key : Str) (v : β) :
    lookupA (updA l key v) key = some v := by
  induction l with
  | nil => simp [updA, lookupA]
  | cons p rest ih =>
    rw [updA]
    by_cases hp : p.1 = key
    · rw [if_pos hp, lookupA, if_pos rfl]
    · rw [if_neg hp, lookupA, if_neg hp]
      exact ih

theorem lookupA_updA_ne {β : Type} (l : List (Str × β)) (key key' : Str) (v : β)
    (h : key' ≠ key) : lookupA (updA l key v) key' = lookupA l key' := by
  induction l with
  | nil =>
    simp only [updA, lookupA]
    rw [if_neg (fun he : key = key' => h he.symm)]
  | cons p rest ih =>
    rw [updA]
    by_cases hp : p.1 = key
    · rw [if_pos hp, lookupA, lookupA, if_neg (fun he => h he.symm), hp,
        if_neg (fun he : key = key' => h he.symm)]
    · rw [if_neg hp, lookupA, lookupA]
      by_cases hq : p.1 = key'
      · rw [if_pos hq, if_pos hq]
      · rw [if_neg hq, if_neg hq]
        exact ih

/-! ### Store getters (src/src/mappings.ts) -/

/-- JS `key.startsWith(...)`. -/
def strStarts (p s : Str) : Bool := decide (List.take p.length s = p)

/-- JS `key.includes(...)`: `pat` occurs as a contiguous substring. -/
def strIncludes (pat : Str) : Str → Bool
  | [] => strStarts pat []
  | c :: rest => strStarts pat (c :: rest) || strIncludes pat rest

/-- `getAllTerms`: identifier to original text.  The source keeps the
flat keys `original_<id>` with `!key.includes('compound_')` and skips
falsy (empty) originals.  No nonempty suffix of `original_` is a prefix
of `compound_`, so the flat key contains `compound_` exactly when the
identifier does; the filter is therefore modelled on the identifier. -/
def getAllTerms (st : Store) : List (Str × Str) :=
  st.terms.filterMap
    (fun p =>
      if p.2.original = [] then none
      else if strIncludes ("compound_".toList) p.1 then none
      else some (p.1, p.2.original))

/-- `getAllCompounds`: compound records whose stored original is truthy. -/
def getAllCompounds (st : Store) : List (Str × CompoundRec) :=
  st.compounds.filter (fun p => decide (p.2.original ≠ []))

/-- `getTranslated` (raw read of `translated_<id>`). -/
def getTranslated (st : Store) (identifier : Str) : Option Str :=
  (lookupA st.terms identifier).map (fun r => r.translated)

/-- `getPosition` (read of `position_<id>` with default 0). -/
def getPosition (st : Store) (identifier : Str) : Nat :=
  ((lookupA st.terms identifier).map (fun r => r.position)).getD 0

/-- `getCompoundIds` (read of `compoundIds_<id>` with default `[]`). -/
def getCompoundIds (st : Store) (identifier : Str) : List Str :=
  ((lookupA st.terms identifier).map (fun r => r.compoundIds)).getD []

/-- `getCompoundByTranslated`: the `translated_to_compound_<t>` index.
The version of translation.ts under src/unnamed/part_002 passes an extra
script argument that the stored index cannot depend on; per spec section 9
the index is a map from translated text to compound id, so the argument is
ignored here. -/
def getCompoundByTranslated (st : Store) (translated : Str) : Option Str :=
  lookupA st.transToCompound translated

/-- Modelled from the spec: the `MappingManager.addTerm` overload called
by translation.ts (src/unnamed/part_002) with an explicitly computed
identifier is not under src/ (src/src/mappings.ts has the 3-argument
version that generates its own identifier).  Per spec section 3 the store
maps the identifier to `{originalText, translatedText, position,
compoundIds}` with an initially empty `compoundIds` set. -/
def addTerm (st : Store) (originalTerm translatedTerm : Str) (position : Nat)
    (identifier : Str) : Store :=
  { st with
    terms := updA st.terms identifier ⟨originalTerm, translatedTerm, position, []⟩ }

/-- `addCompound` from src/src/mappings.ts: bump the counter, write the
compound record and the translated-to-compound index entry, and link each
part (appending the compound id to the part's `compoundIds` unless already
present).  The source's flat keys double the prefix
(`compound_compound_<n>_...`); the id itself is `compound_<n>`. -/
def addCompound (st : Store) (originalCompound translatedCompound : Str)
    (partIds : List Str) (position : Nat) : Store × Str :=
  let counter := st.compoundCounter + 1
  let compoundId := "compound_".toList ++ natToStr counter
  let st1 : Store :=
    { st with
      compoundCounter := counter,
      compounds := updA st.compounds compoundId
        ⟨originalCompound, translatedCompound, partIds, position⟩,
      transToCompound := updA st.transToCompound translatedCompound compoundId }
  let st2 := partIds.foldl
    (fun acc partId =>
      match lookupA acc.terms partId with
      | some r =>
        if compoundId ∈ r.compoundIds then acc
        else
          let r2 : TermRec := { r with compoundIds := r.compoundIds ++ [compoundId] }
          { acc with terms := updA acc.terms partId r2 }
      | none => acc) st1
  (st2, compoundId)

/-! ### removeTermPictographic (src/src/mappings.ts) -/

/-- JS `identifier.split('_')`. -/
def splitOn (sep : Char) : Str → List Str
  | [] => [[]]
  | c :: rest =>
    let r := splitOn sep rest
    if c = sep then [] :: r
    else (c :: r.headD []) :: r.tail

/-- JS `parseInt`: parse the maximal leading digit run; `none` models
`NaN` (every `NaN` comparison in the source is false). -/
def parseIntOpt (s : Str) : Option Nat :=
  let ds := s.takeWhile (fun c => decide ('0' ≤ c ∧ c ≤ '9'))
  if ds = [] then none else some (parseDigits ds)

/-- Stable ascending insertion by numeric key (JS `sort((a,b) => a-b)` is
stable). -/
def insertAsc (x : Str × Nat) : List (Str × Nat) → List (Str × Nat)
  | [] => [x]
  | y :: ys => if y.2 < x.2 then y :: insertAsc x ys else x :: y :: ys

def sortByNum : List (Str × Nat) → List (Str × Nat)
  | [] => []
  | x :: xs => insertAsc x (sortByNum xs)

/-- One iteration of the compound-unlink loop of
`removeTermPictographic` (src/src/mappings.ts lines 102-121): against the
snapshot record, write the filtered part list, then delete the compound
(and its index entry) if no parts remain. -/
def removeUnlinkStep (allCompounds : List (Str × CompoundRec)) (identifier : Str)
    (acc : Store) (cid : Str) : Store :=
  match lookupA allCompounds cid with
  | none => acc
  | some comp =>
    let updatedParts := comp.parts.filter (fun p => decide (p ≠ identifier))
    let acc1 :=
      match lookupA acc.compounds cid with
      | some cur =>
        { acc with compounds := updA acc.compounds cid { cur with parts := updatedParts } }
      | none => acc
    if updatedParts = [] then
      { acc1 with
        compounds := delA acc1.compounds cid,
        transToCompound := delA acc1.transToCompound comp.translated }
    else acc1

/-- One iteration of the renumbering loop of `removeTermPictographic`
(src/src/mappings.ts lines 131-148): move the record of `<coreTerm>_<n>`
to `<coreTerm>_<n-1>` and delete the old keys. -/
def removeShiftStep (coreTerm : Str) (acc : Store) (x : Str × Nat) : Store :=
  let newId := coreTerm ++ '_' :: natToStr (x.2 - 1)
  match lookupA acc.terms x.1 with
  | some r => { acc with terms := delA (updA acc.terms newId r) x.1 }
  | none => acc

/-- `removeTermPictographic` from src/src/mappings.ts.  Phase 1 walks the
term's `compoundIds` against a snapshot of `getAllCompounds`, filtering
the removed identifier out of each compound's part list and deleting any
compound left with zero parts (together with its
`translated_to_compound` index entry).  Phase 2 deletes the term's own
keys.  Phase 3 renumbers the remaining `<coreTerm>_<n>` identifiers above
the removed index downwards (the `position` parameter is unused by the
source body). -/
def removeTermPictographic (st : Store) (identifier : Str) (_position : Nat) : Store :=
  let allTerms := getAllTerms st
  let allCompounds := getAllCompounds st
  let coreTerm := (splitOn '_' identifier).headD []
  let indexOpt := parseIntOpt ((splitOn '_' identifier).getD 1 [])
  let compoundIds := getCompoundIds st identifier
  let st1 := compoundIds.foldl (removeUnlinkStep allCompounds identifier) st
  let st2 := { st1 with terms := delA st1.terms identifier }
  let shiftList := sortByNum (allTerms.filterMap
    (fun p =>
      match parseIntOpt ((splitOn '_' p.1).getD 1 []), indexOpt with
      | some m, some idx =>
        if strStarts coreTerm p.1 ∧ idx < m then some (p.1, m) else none
      | _, _ => none))
  shiftList.foldl (removeShiftStep coreTerm) st2

/-- `removeCompound` from src/src/mappings.ts. -/
def removeCompound (st : Store) (compoundId : Str) : Store :=
  match lookupA (getAllCompounds st) compoundId with
  | none => st
  | some compound =>
    let st1 := compound.parts.foldl
      (fun acc partId =>
        match lookupA acc.terms partId with
        | some r =>
          let r2 : TermRec :=
            { r with compoundIds := r.compoundIds.filter (fun i => decide (i ≠ compoundId)) }
          { acc with terms := updA acc.terms partId r2 }
        | none => acc) st
    { st1 with
      compounds := delA st1.compounds compoundId,
      transToCompound := delA st1.transToCompound compound.translated }

/-- `clearMap` from src/src/mappings.ts: all namespaced keys removed, the
compound counter reset to 0. -/
def clearMap (_st : Store) : Store := emptyStore

/-! ### rebuildMap (src/src/mappings.ts) -/

/-- `assignPositions`: for each token of the list, append its character
offset to the token's position set. -/
def assignGo : List Str → List (Str × List Nat) → Nat → List (Str × List Nat)
  | [], acc, _ => acc
  | tok :: ts, acc, pos =>
    assignGo ts (updA acc tok (((lookupA acc tok).getD []) ++ [pos])) (pos + tok.length)

def assignPositions (tokens : List Str) : List (Str × List Nat) :=
  assignGo tokens [] 0

/-- `positions[token] || []`. -/
def posLookup (positions : List (Str × List Nat)) (tok : Str) : List Nat :=
  (lookupA positions tok).getD []

theorem assignGo_mem (ts : List Str) (acc : List (Str × List Nat)) (p : Nat) (t : Str) :
    posLookup (assignGo ts acc p) t ≠ [] ↔ posLookup acc t ≠ [] ∨ t ∈ ts := by
  induction ts generalizing acc p with
  | nil => simp [assignGo]
  | cons tok rest ih =>
    rw [assignGo, ih]
    by_cases h : t = tok
    · subst h
      simp only [posLookup, lookupA_updA_self, Option.getD_some, List.mem_cons]
      constructor
      · intro _
        right
        left
        trivial
      · intro _
        left
        simp
    · simp only [posLookup, lookupA_updA_ne _ _ _ _ h, List.mem_cons]
      constructor
      · rintro (hx | hx)
        · exact Or.inl hx
        · exact Or.inr (Or.inr hx)
      · rintro (hx | hx | hx)
        · exact Or.inl hx
        · exact absurd hx h
        · exact Or.inr hx

theorem assignPositions_mem (tokens : List Str) (t : Str) :
    posLookup (assignPositions tokens) t ≠ [] ↔ t ∈ tokens := by
  rw [assignPositions, assignGo_mem]
  simp [posLookup, lookupA]

/-- The per-term keep condition of `rebuildMap` (lines 297-319 of
src/src/mappings.ts): skip orphaned compound parts that are not standalone
at their stored position, then keep the term if its translated form occurs
in the current text or its stored position occurs in the last translated
text's position set for that token. -/
def rebuildTermKeep (currPositions lastPositions : List (Str × List Nat))
    (newCompounds : List (Str × CompoundRec)) (r : TermRec) : Bool :=
  (!(r.compoundIds.any (fun cid => (lookupA newCompounds cid).isSome) &&
      decide (r.position ∉ posLookup currPositions r.translated))) &&
  (decide (posLookup currPositions r.translated ≠ []) ||
    decide (r.position ∈ posLookup lastPositions r.translated))

/-- `rebuildMap(lastTranslated, original, current)` from
src/src/mappings.ts.  All three texts tokenize with the same regex
(`getTokenRegex` ignores its script argument); the position table built
from `original` is computed by the source but never read, so it is omitted
here.  Compounds are kept iff their translated form occurs in the current
text; terms are kept by `rebuildTermKeep`; the store is then cleared and
rewritten with exactly the survivors (the in-memory compound counter was
zeroed by `clearMap`, and the final write stores that zero). -/
def rebuildMap (st : Store) (lastTranslated _original current : Str) : Store :=
  let lastPositions := assignPositions (tokenize lastTranslated)
  let currPositions := assignPositions (tokenize current)
  let newCompounds := (getAllCompounds st).filter
    (fun p => decide (posLookup currPositions p.2.translated ≠ []))
  let newTerms := st.terms.filter
    (fun p => decide (p.2.original ≠ []) &&
      rebuildTermKeep currPositions lastPositions newCompounds p.2)
  { terms := newTerms,
    compounds := newCompounds,
    transToCompound := newCompounds.foldl (fun acc p => updA acc p.2.translated p.1) [],
    compoundCounter := 0 }

/-! ### Forward translator (`translateToTarget`, src/unnamed/part_002) -/

/-- Dictionary: target-language term to ordered list of original-language
synonyms, in `Object.entries` (insertion) order. -/
abbrev Dict := List (Str × List Str)

/-- First dictionary entry one of whose synonyms case-insensitively
equals the token (the `for...of Object.entries` scan with
`enTerms.some(t => t.toLowerCase() === original.toLowerCase())`). -/
def dictFindFull (dict : Dict) (tok : Str) : Option (Str × List Str) :=
  dict.find? (fun e => e.2.any (fun t => lowerStr t == lowerStr tok))

/-- JS `String.prototype.trim` on a token. -/
def trimStr (s : Str) : Str :=
  ((s.dropWhile isSpaceChar).reverse.dropWhile isSpaceChar).reverse

/-- `i > 0 && (tokens[i-1].trim() === ':' || tokens[i-1].trim() === '->')`
(`none` encodes `i = 0`). -/
def prevIsColonArrow : Option Str → Bool
  | none => false
  | some p => trimStr p == [':'] || trimStr p == ['-', '>']

/-- In-place mutation of one dictionary entry's synonym list
(`enTerms.push(part)`). -/
def updDict (dict : Dict) (key : Str) (syns : List Str) : Dict :=
  dict.map (fun e => if e.1 = key then (key, syns) else e)

structure FwdState where
  out : List Str
  store : Store
  dict : Dict
  updated : Bool
  pos : Nat
deriving DecidableEq, Repr

structure PartState where
  targets : List Str
  partIds : List Str
  store : Store
  dict : Dict
  updated : Bool
  partPos : Nat
deriving DecidableEq, Repr

/-- One iteration of the compound-part loop of `translateToTarget`
(src/unnamed/part_002 lines 100-122): dictionary lookup with case-variant
appending (setting the dirty flag), then term registration with a running
prefix equal to the emitted output plus the already-translated parts of
the current token. -/
def fwdPart (script : Script) (outPrefix : Str) (ps : PartState) (part : Str) : PartState :=
  let found := dictFindFull ps.dict part
  let partTarget := match found with
    | some e => matchCase part e.1
    | none => part
  let dict' := match found with
    | some e => if part ∈ e.2 then ps.dict else updDict ps.dict e.1 (e.2 ++ [part])
    | none => ps.dict
  let updated' := match found with
    | some e => if part ∈ e.2 then ps.updated else true
    | none => ps.updated
  let idBase := if script = .latin then lowerStr partTarget else partTarget
  let textSoFar := outPrefix ++ joinStr ps.targets
  let occ := countCI idBase textSoFar
  let identifier := mkId idBase (occ + 1) false
  { targets := ps.targets ++ [partTarget],
    partIds := ps.partIds ++ [identifier],
    store := addTerm ps.store part partTarget ps.partPos identifier,
    dict := dict',
    updated := updated',
    partPos := ps.partPos + part.length }

/-- Per-token step of `translateToTarget` (src/unnamed/part_002 lines
57-143): punctuation/whitespace pass through; a full dictionary hit
records a term under the occurrence-indexed identifier (with `_type` when
the previous raw token trims to `:` or `->`); otherwise compound
segmentation with more than one part translates the parts and registers a
compound; otherwise the token is kept and registered as an identity
term. -/
def fwdStep (script : Script) (prev : Option Str) (st : FwdState) (token : Str) :
    FwdState :=
  if token.any (fun c => !(isWordChar c)) then
    { st with out := st.out ++ [token], pos := st.pos + token.length }
  else
    match dictFindFull st.dict token with
    | some e =>
      let translated := matchCase token e.1
      let originalCase := (e.2.find? (fun t => t == token)).getD (e.2.headD [])
      let isType := prevIsColonArrow prev
      let idBase := if script = .latin then lowerStr translated else translated
      let occ := countCI idBase (joinStr st.out)
      let identifier := mkId idBase (occ + 1) isType
      { st with
        out := st.out ++ [translated],
        store := addTerm st.store originalCase translated st.pos identifier,
        pos := st.pos + token.length }
    | none =>
      let parts := splitCompound token
      if 1 < parts.length then
        let ps := parts.foldl (fwdPart script (joinStr st.out))
          ⟨[], [], st.store, st.dict, st.updated, st.pos⟩
        let translated := joinStr ps.targets
        let res := addCompound ps.store token translated ps.partIds st.pos
        { out := st.out ++ [translated], store := res.1, dict := ps.dict,
          updated := ps.updated, pos := st.pos + token.length }
      else
        let idBase := if script = .latin then lowerStr token else token
        let occ := countCI idBase (joinStr st.out)
        let identifier := mkId idBase (occ + 1) false
        { st with
          out := st.out ++ [token],
          store := addTerm st.store token token st.pos identifier,
          pos := st.pos + token.length }

def fwdGo (script : Script) : Option Str → FwdState → List Str → FwdState
  | _, st, [] => st
  | prev, st, t :: ts => fwdGo script (some t) (fwdStep script prev st t) ts

structure FwdResult where
  output : Str
  store : Store
  dict : Dict
  updated : Bool
deriving DecidableEq, Repr

/-- `translateToTarget(text, dictionary)` from src/unnamed/part_002: the
store is cleared first (`mappingManager.clearMap()`), the script detected
from the input, and the tokens folded left to right.  The result bundles
the output text, the populated store, the (possibly mutated) dictionary
and the dirty flag. -/
def translateToTarget (text : Str) (dict : Dict) : FwdResult :=
  let script := detectScript text
  let st := fwdGo script none ⟨[], clearMap emptyStore, dict, false, 0⟩ (tokenize text)
  ⟨joinStr st.out, st.store, st.dict, st.updated⟩

/-! ### Backward translator (`translateToOriginal`, src/unnamed/part_002) -/

/-- `/:\s*$|->\s*$/.test(text.substring(0, pos).slice(-10))`. -/
def typeCheckBefore (textBefore : Str) : Bool :=
  let window := textBefore.drop (textBefore.length - 10)
  let r := window.reverse.dropWhile isSpaceChar
  r.headD ' ' == ':' || r.take 2 == ['>', '-']

/-- `allTerms[id]` (`getAllTerms` skips falsy originals). -/
def allTermsLookup (st : Store) (identifier : Str) : Option Str :=
  lookupA (getAllTerms st) identifier

/-- The `Object.entries(allTerms).find` scan of the dictionary-fallback
branch: first stored term whose translated text matches the dictionary
key (case-insensitively for latin). -/
def findMappedTerm (st : Store) (isLatin : Bool) (dictTerm : Str) :
    Option (Str × Str) :=
  (getAllTerms st).find? (fun p =>
    match getTranslated st p.1 with
    | some tr =>
      !tr.isEmpty &&
        (if isLatin then lowerStr tr == lowerStr dictTerm else tr == dictTerm)
    | none => false)

/-- The dictionary scan of the fallback branch: first entry whose key
matches the token (case-insensitively for latin, exactly otherwise). -/
def bwdDictFind (dict : Dict) (isLatin : Bool) (tok : Str) : Option (Str × List Str) :=
  dict.find? (fun e => if isLatin then lowerStr e.1 == lowerStr tok else e.1 == tok)

/-- Dictionary-fallback stage of `translateToOriginal`
(src/unnamed/part_002 lines 224-250): the first matching dictionary key
answers `str` for the hardcoded `zeichenkette`-annotation case, else the
original of the first stored term whose translated text matches the key,
else the key's first synonym; an empty result (JS falsiness) and a missing
key both degrade to the token itself. -/
def bwdDictResolve (store : Store) (dict : Dict) (isLatin : Bool) (isType : Bool)
    (token : Str) : Str :=
  match bwdDictFind dict isLatin token with
  | some e =>
    let translated :=
      if lowerStr token == "zeichenkette".toList && isType then
        (if isLatin then matchCase token "str".toList else "str".toList)
      else
        match findMappedTerm store isLatin e.1 with
        | some p => if isLatin then matchCase token p.2 else p.2
        | none =>
          if isLatin then matchCase token (e.2.headD []) else e.2.headD []
    if translated.isEmpty then token else translated
  | none => token

/-- Store lookup of the recomputed identifier: the annotation-appropriate
variant first, the other variant as the secondary attempt (a hit from
either is case-matched the same way by the caller). -/
def bwdIdentHit (store : Store) (isType : Bool) (typeId regId : Str) : Option Str :=
  let primary : Option Str :=
    if isType then allTermsLookup store typeId else allTermsLookup store regId
  if primary.isSome then primary
  else if isType then allTermsLookup store regId else allTermsLookup store typeId

/-- Word-token resolution of `translateToOriginal` (src/unnamed/part_002
lines 183-251): stored compound by translated form; else the recomputed
occurrence identifier - the annotation variant first when the last 10
characters before the token match `:\s*$|->\s*$`, the plain variant
first otherwise, with the other variant as the secondary attempt (both
hits are case-matched the same way, so the two lookups are combined into
one ordered hit below); else the dictionary fallback; else the token. -/
def bwdResolve (store : Store) (dict : Dict) (isLatin : Bool) (first : Bool)
    (textBefore : Str) (token : Str) : Str :=
  let compHit : Option CompoundRec :=
    (getCompoundByTranslated store token).bind (fun cid => lookupA (getAllCompounds store) cid)
  match compHit with
  | some comp => comp.original
  | none =>
    let isType := !first && typeCheckBefore textBefore
    let idBase := if isLatin then lowerStr token else token
    let occ := countCI idBase textBefore
    let typeId := mkId idBase (occ + 1) true
    let regId := mkId idBase (occ + 1) false
    match bwdIdentHit store isType typeId regId with
    | some orig => if isLatin then matchCase token orig else orig
    | none => bwdDictResolve store dict isLatin isType token

def bwdStep (store : Store) (dict : Dict) (isLatin : Bool) (first : Bool)
    (textBefore : Str) (token : Str) : Str :=
  if token.any (fun c => !(isWordChar c)) then token
  else bwdResolve store dict isLatin first textBefore token

def bwdGo (store : Store) (dict : Dict) (isLatin : Bool) (text : Str) :
    Nat → Nat → List Str → List Str
  | _, _, [] => []
  | i, pos, t :: ts =>
    bwdStep store dict isLatin (i = 0) (List.take pos text) t ::
      bwdGo store dict isLatin text (i + 1) (pos + t.length) ts

/-- `translateToOriginal(text, mappingManager, dictionary)` from
src/unnamed/part_002 (the script parameter defaults to
`detectScript(text)` and only selects latin case handling - the token
regex is script-independent). -/
def translateToOriginal (store : Store) (dict : Dict) (text : Str)
    (script : Script := detectScript text) : Str :=
  joinStr (bwdGo store dict (script = .latin) text 0 0 (tokenize text))

/-! ### The translateToOriginal variant embedded in src/src/mappings.ts
(lines 572-655): protected keywords plus position-proximity matching. -/

/-- The fixed protected-keyword set (`PROTECTED_KEYWORDS` in
src/src/mappings.ts line 374). -/
def PROTECTED_KEYWORDS : List Str :=
  ["long".toList, "bool".toList, "const".toList, "char".toList, "int".toList,
   "void".toList, "for".toList, "if".toList, "true".toList, "false".toList,
   "break".toList]

def natDist (a b : Nat) : Nat := max a b - min a b

/-- Stable ascending insertion sort by a numeric key (JS stable
`sort((a, b) => a - b)`). -/
def insertByKey {α : Type} (key : α → Nat) (x : α) : List α → List α
  | [] => [x]
  | y :: ys => if key y < key x then y :: insertByKey key x ys else x :: y :: ys

def sortByKey {α : Type} (key : α → Nat) : List α → List α
  | [] => []
  | x :: xs => insertByKey key x (sortByKey key xs)

namespace MappingsDoc

/-- Proximity candidates (src/src/mappings.ts lines 614-620): stored terms
whose translated text equals the token exactly and whose stored position
is within `token.length + 1` of the token's position, stably sorted by
that distance. -/
def candidates (store : Store) (position : Nat) (token : Str) : List (Str × Str) :=
  sortByKey (fun p => natDist (getPosition store p.1) position)
    ((getAllTerms store).filter (fun p =>
      match getTranslated store p.1 with
      | some tr => tr == token && decide (natDist (getPosition store p.1) position < token.length + 1)
      | none => false))

/-- Per-token step of the `translateToOriginal` variant in
src/src/mappings.ts (lines 589-650): punctuation/whitespace or a
protected keyword passes through unchanged; else a stored compound by
translated form; else the closest proximity candidate's original; else
the first synonym of a case-insensitively matching dictionary key (an
empty synonym degrading to identity); else the token itself. -/
def bwdStep (store : Store) (dict : Dict) (position : Nat) (token : Str) : Str :=
  if token.any (fun c => !(isWordChar c)) || token ∈ PROTECTED_KEYWORDS then token
  else
    let compHit : Option CompoundRec :=
      (getCompoundByTranslated store token).bind
        (fun cid => lookupA (getAllCompounds store) cid)
    match compHit with
    | some comp => comp.original
    | none =>
      match candidates store position token with
      | p :: _ => p.2
      | [] =>
        match dict.find? (fun e => lowerStr e.1 == lowerStr token) with
        | some e => if (e.2.headD []).isEmpty then token else e.2.headD []
        | none => token

def bwdGo (store : Store) (dict : Dict) : Nat → List Str → List Str
  | _, [] => []
  | pos, t :: ts => bwdStep store dict pos t :: bwdGo store dict (pos + t.length) ts

/-- The `translateToOriginal` embedded in src/src/mappings.ts (its script
parameter only feeds `getTokenRegex`, which ignores it). -/
def translateToOriginal (store : Store) (dict : Dict) (text : Str) : Str :=
  joinStr (bwdGo store dict 0 (tokenize text))

end MappingsDoc

/-! ### Round-trip infrastructure (claim C1)

The round trip is analysed for ASCII texts whose word characters are all
lowercase `a`-`z`, against dictionaries whose keys and synonyms are
nonempty lowercase words.  The lemmas below characterise the forward pass
exactly (emitted tokens and store contents) and replay the backward pass
over that characterisation. -/

theorem lowerChar_of_lower {c : Char} (h : isLowerAZ c = true) : lowerChar c = c := by
  simp only [isLowerAZ, Bool.and_eq_true, decide_eq_true_eq] at h
  unfold lowerChar
  rw [if_neg (by omega)]

theorem lowerStr_of_lower {s : Str} (h : ∀ c ∈ s, isLowerAZ c = true) :
    lowerStr s = s := by
  induction s with
  | nil => rfl
  | cons c rest ih =>
    have h1 := lowerChar_of_lower (h c (List.mem_cons_self c rest))
    have h2 := ih (fun x hx => h x (List.mem_cons_of_mem c hx))
    simp only [lowerStr, List.map_cons] at *
    rw [h1, h2]

theorem isWordChar_of_lower {c : Char} (h : isLowerAZ c = true) :
    isWordChar c = true := by
  simp only [isLowerAZ, Bool.and_eq_true, decide_eq_true_eq] at h
  simp only [isWordChar, Bool.or_eq_true, Bool.and_eq_true, decide_eq_true_eq]
  omega

theorem not_upper_of_lower {c : Char} (h : isLowerAZ c = true) :
    isUpperAZ c = false := by
  simp only [isLowerAZ, Bool.and_eq_true, decide_eq_true_eq] at h
  rw [Bool.eq_false_iff]
  intro hu
  simp only [isUpperAZ, Bool.and_eq_true, decide_eq_true_eq] at hu
  omega

theorem lower_ascii {c : Char} (h : isLowerAZ c = true) : c.toNat < 128 := by
  simp only [isLowerAZ, Bool.and_eq_true, decide_eq_true_eq] at h
  omega

theorem lower_no_underscore {s : Str} (h : ∀ c ∈ s, isLowerAZ c = true) :
    '_' ∉ s := by
  intro hmem
  have hc := h _ hmem
  simp only [isLowerAZ, Bool.and_eq_true, decide_eq_true_eq] at hc
  have hval : Char.toNat '_' = 95 := rfl
  omega

/-- Proof-side suffix test (JS `String.prototype.endsWith`), used to
state which bases survive the `!key.includes('compound_')` filter of
`getAllTerms`. -/
def strEnds (p s : Str) : Bool := decide (List.drop (s.length - p.length) s = p)

theorem strEnds_of_append {p u s : Str} (h : u ++ p = s) : strEnds p s = true := by
  subst h
  unfold strEnds
  rw [decide_eq_true_iff]
  have hl : (u ++ p).length - p.length = u.length := by
    rw [List.length_append]
    omega
  rw [hl]
  exact List.drop_left u p

theorem strStarts_iff {p s : Str} : strStarts p s = true ↔ ∃ v, s = p ++ v := by
  unfold strStarts
  rw [decide_eq_true_iff]
  constructor
  · intro h
    refine ⟨s.drop p.length, ?_⟩
    conv_lhs => rw [← List.take_append_drop p.length s]
    rw [h]
  · rintro ⟨v, rfl⟩
    exact List.take_left p v

theorem strIncludes_iff {p s : Str} :
    strIncludes p s = true ↔ ∃ u v, s = u ++ p ++ v := by
  induction s with
  | nil =>
    rw [strIncludes, strStarts_iff]
    constructor
    · rintro ⟨v, hv⟩
      exact ⟨[], v, by rw [List.nil_append]; exact hv⟩
    · rintro ⟨u, v, huv⟩
      have h := huv.symm
      simp only [List.append_eq_nil] at h
      refine ⟨[], ?_⟩
      rw [h.1.2]
      rfl
  | cons c rest ih =>
    rw [strIncludes, Bool.or_eq_true, strStarts_iff, ih]
    constructor
    · rintro (⟨v, hv⟩ | ⟨u, v, huv⟩)
      · exact ⟨[], v, by rw [List.nil_append]; exact hv⟩
      · refine ⟨c :: u, v, ?_⟩
        rw [huv]
        simp
    · rintro ⟨u, v, huv⟩
      cases u with
      | nil =>
        refine Or.inl ⟨v, ?_⟩
        rw [List.nil_append] at huv
        exact huv
      | cons x u2 =>
        refine Or.inr ⟨u2, v, ?_⟩
        have h2 : c :: rest = x :: (u2 ++ p ++ v) := by
          rw [huv]
          simp
        exact congrArg List.tail h2

theorem split_first_mem {c : Char} : ∀ {u : Str}, c ∈ u →
    ∃ u1 u2, u = u1 ++ c :: u2 ∧ c ∉ u1 := by
  intro u
  induction u with
  | nil =>
    intro h
    exact absurd h (List.not_mem_nil c)
  | cons x rest ih =>
    intro h
    by_cases hx : x = c
    · exact ⟨[], rest, by rw [hx, List.nil_append], by simp⟩
    · rcases List.mem_cons.mp h with h | h
      · exact absurd h.symm hx
      · obtain ⟨u1, u2, he, hn⟩ := ih h
        refine ⟨x :: u1, u2, by rw [he, List.cons_append], ?_⟩
        intro hmem
        rcases List.mem_cons.mp hmem with hm | hm
        · exact hx hm.symm
        · exact hn hm

/-- An identifier `base_n[_type]` over an underscore-free lowercase base
contains the substring `compound_` only when `compound` is a suffix of
the base: the pattern's trailing underscore must be one of the
identifier's two underscores, and the characters before the second one
end in a digit, not `d`.  With that suffix excluded the identifier
survives the `!key.includes('compound_')` filter of `getAllTerms`. -/
theorem mkId_no_compound {base : Str} (n : Nat) (ty : Bool)
    (hb : ∀ c ∈ base, isLowerAZ c = true)
    (hsuf : strEnds ("compound".toList) base = false) :
    strIncludes ("compound_".toList) (mkId base n ty) = false := by
  rw [Bool.eq_false_iff]
  intro hinc
  obtain ⟨u, v, huv⟩ := strIncludes_iff.mp hinc
  have hbase_u : '_' ∉ base := lower_no_underscore hb
  have hdig : '_' ∉ natToStr n := natToStr_no_underscore n
  have hcomp_u : '_' ∉ ("compound".toList : Str) := by decide
  have hpat : ("compound_".toList : Str) = "compound".toList ++ ['_'] := rfl
  rw [hpat] at huv
  cases ty with
  | false =>
    have huv2 : base ++ '_' :: natToStr n =
        (u ++ "compound".toList) ++ '_' :: v := by
      have h := huv
      simp only [mkId, Bool.false_eq_true, if_false, List.append_nil] at h
      simpa [List.append_assoc] using h
    by_cases hu : '_' ∈ u
    · obtain ⟨u1, u2, hu12, hu1⟩ := split_first_mem hu
      have huv3 : base ++ '_' :: natToStr n =
          u1 ++ '_' :: (u2 ++ ("compound".toList ++ '_' :: v)) := by
        rw [huv2, hu12]
        simp [List.append_assoc]
      obtain ⟨_, hrest⟩ := underscore_split hbase_u hu1 huv3
      have hmem : '_' ∈ natToStr n := by
        rw [hrest]
        simp
      exact hdig hmem
    · have hnu : '_' ∉ u ++ "compound".toList := by
        intro hmem
        rcases List.mem_append.mp hmem with h | h
        · exact hu h
        · exact hcomp_u h
      obtain ⟨hbe, _⟩ := underscore_split hbase_u hnu huv2
      have := strEnds_of_append hbe.symm
      rw [hsuf] at this
      cases this
  | true =>
    have huv2 : base ++ '_' :: (natToStr n ++ '_' :: ['t', 'y', 'p', 'e']) =
        (u ++ "compound".toList) ++ '_' :: v := by
      have h := huv
      simp only [mkId, if_true] at h
      simpa [List.append_assoc] using h
    by_cases hu : '_' ∈ u
    · obtain ⟨u1, u2, hu12, hu1⟩ := split_first_mem hu
      have huv3 : base ++ '_' :: (natToStr n ++ '_' :: ['t', 'y', 'p', 'e']) =
          u1 ++ '_' :: (u2 ++ ("compound".toList ++ '_' :: v)) := by
        rw [huv2, hu12]
        simp [List.append_assoc]
      obtain ⟨_, hrest⟩ := underscore_split hbase_u hu1 huv3
      by_cases hu2 : '_' ∈ u2
      · obtain ⟨w1, w2, hw12, hw1⟩ := split_first_mem hu2
        have hrest2 : natToStr n ++ '_' :: ['t', 'y', 'p', 'e'] =
            w1 ++ '_' :: (w2 ++ ("compound".toList ++ '_' :: v)) := by
          rw [hrest, hw12]
          simp [List.append_assoc]
        obtain ⟨_, hty⟩ := underscore_split hdig hw1 hrest2
        have hmem : '_' ∈ (['t', 'y', 'p', 'e'] : Str) := by
          rw [hty]
          simp
        exact absurd hmem (by decide)
      · have hnu2 : '_' ∉ u2 ++ "compound".toList := by
          intro hmem
          rcases List.mem_append.mp hmem with h | h
          · exact hu2 h
          · exact hcomp_u h
        have hrest2 : natToStr n ++ '_' :: ['t', 'y', 'p', 'e'] =
            (u2 ++ "compound".toList) ++ '_' :: v := by
          rw [hrest]
          simp [List.append_assoc]
        obtain ⟨hde, _⟩ := underscore_split hdig hnu2 hrest2
        have hdmem : 'd' ∈ natToStr n := by
          rw [hde]
          have : 'd' ∈ ("compound".toList : Str) := by decide
          exact List.mem_append.mpr (Or.inr this)
        have hdd := natToStr_digits n 'd' hdmem
        exact absurd hdd (by decide)
    · have hnu : '_' ∉ u ++ "compound".toList := by
        intro hmem
        rcases List.mem_append.mp hmem with h | h
        · exact hu h
        · exact hcomp_u h
      obtain ⟨hbe, _⟩ := underscore_split hbase_u hnu huv2
      have := strEnds_of_append hbe.symm
      rw [hsuf] at this
      cases this

theorem matchCase_of_lower {s t : Str}
    (hs : ∀ c ∈ s, isLowerAZ c = true) (ht : ∀ c ∈ t, isLowerAZ c = true) :
    matchCase s t = t := by
  cases s with
  | nil => cases t <;> rfl
  | cons a as =>
    cases t with
    | nil => rfl
    | cons b bs =>
      have ha := not_upper_of_lower (hs a (List.mem_cons_self a as))
      have hb := not_upper_of_lower (ht b (List.mem_cons_self b bs))
      simp [matchCase, ha, hb]

theorem detectScript_ascii {s : Str} (h : ∀ c ∈ s, c.toNat < 128) :
    detectScript s = .latin := by
  have h1 : s.any (fun c => 0x4E00 ≤ c.toNat && c.toNat ≤ 0x9FFF) = false := by
    rw [List.any_eq_false]
    intro c hc
    have := h c hc
    simp only [Bool.and_eq_true, decide_eq_true_eq, not_and]
    omega
  have h2 : s.any (fun c => 0x900 ≤ c.toNat && c.toNat ≤ 0x97F) = false := by
    rw [List.any_eq_false]
    intro c hc
    have := h c hc
    simp only [Bool.and_eq_true, decide_eq_true_eq, not_and]
    omega
  have h3 : s.any (fun c =>
      (0x430 ≤ c.toNat && c.toNat ≤ 0x44F) || (0x410 ≤ c.toNat && c.toNat ≤ 0x42F) ||
      c.toNat = 0x451 || c.toNat = 0x401) = false := by
    rw [List.any_eq_false]
    intro c hc
    have := h c hc
    simp only [Bool.or_eq_true, Bool.and_eq_true, decide_eq_true_eq, not_or, not_and]
    omega
  unfold detectScript
  rw [h1, h2, h3]
  rfl

theorem classOf_word {c : Char} (h : isWordChar c = true) : classOf c = .word := by
  unfold classOf
  rw [if_pos h]

theorem lookupA_some_mem {β : Type} {l : List (Str × β)} {k : Str} {v : β}
    (h : lookupA l k = some v) : (k, v) ∈ l := by
  induction l with
  | nil => simp [lookupA] at h
  | cons p rest ih =>
    rw [lookupA] at h
    by_cases hp : p.1 = k
    · rw [if_pos hp] at h
      injection h with h2
      subst h2
      subst hp
      exact List.mem_cons_self _ _
    · rw [if_neg hp] at h
      exact List.mem_cons_of_mem p (ih h)

theorem lookupA_none_of_no_key {β : Type} (l : List (Str × β)) (k : Str)
    (h : ∀ p ∈ l, p.1 ≠ k) : lookupA l k = none := by
  induction l with
  | nil => rfl
  | cons p rest ih =>
    rw [lookupA, if_neg (h p (List.mem_cons_self p rest))]
    exact ih (fun q hq => h q (List.mem_cons_of_mem p hq))

theorem updA_fresh {β : Type} {l : List (Str × β)} {k : Str} (v : β)
    (h : lookupA l k = none) : updA l k v = l ++ [(k, v)] := by
  induction l with
  | nil => rfl
  | cons p rest ih =>
    rw [lookupA] at h
    by_cases hp : p.1 = k
    · rw [if_pos hp] at h
      exact absurd h (by simp)
    · rw [if_neg hp] at h
      rw [updA, if_neg hp, ih h, List.cons_append]

theorem lookupA_append {β : Type} (a b : List (Str × β)) (k : Str) :
    lookupA (a ++ b) k =
      match lookupA a k with
      | some v => some v
      | none => lookupA b k := by
  induction a with
  | nil => simp [lookupA]
  | cons p rest ih =>
    rw [List.cons_append, lookupA, lookupA]
    by_cases hp : p.1 = k
    · rw [if_pos hp, if_pos hp]
    · rw [if_neg hp, if_neg hp, ih]

theorem lookupA_map_val {β γ : Type} (l : List (Str × β)) (g : β → γ) (k : Str) :
    lookupA (l.map (fun p => (p.1, g p.2))) k = (lookupA l k).map g := by
  induction l with
  | nil => rfl
  | cons p rest ih =>
    by_cases hp : p.1 = k
    · simp [lookupA, hp]
    · simp [lookupA, hp, ih]

theorem filterMap_terms_eq_map (l : List (Str × TermRec))
    (h : ∀ p ∈ l, p.2.original ≠ [] ∧
      strIncludes ("compound_".toList) p.1 = false) :
    (l.filterMap fun p =>
        if p.2.original = [] then none
        else if strIncludes ("compound_".toList) p.1 then none
        else some (p.1, p.2.original)) =
      l.map (fun p => (p.1, p.2.original)) := by
  induction l with
  | nil => rfl
  | cons p rest ih =>
    rw [List.filterMap_cons, List.map_cons]
    rw [if_neg (h p (List.mem_cons_self p rest)).1]
    have h2 := (h p (List.mem_cons_self p rest)).2
    rw [if_neg (fun hc => by rw [h2] at hc; exact Bool.false_ne_true hc)]
    rw [ih (fun q hq => h q (List.mem_cons_of_mem p hq))]

theorem countCI_mono_ne (pat : Str) (hne : pat ≠ []) (u v : Str) :
    countCI pat u ≤ countCI pat (u ++ v) := by
  cases pat with
  | nil => exact absurd rfl hne
  | cons p ps => exact countCI_mono p ps u v

theorem countCI_append_self_ne (pat u w : Str) (hne : pat ≠ [])
    (hw : lowerStr w = lowerStr pat) :
    countCI pat u + 1 ≤ countCI pat (u ++ w) := by
  cases pat with
  | nil => exact absurd rfl hne
  | cons p ps => exact countCI_append_self p ps u w hw

theorem takeRun_all (k : TokClass) (a b : Str)
    (ha : ∀ c ∈ a, classOf c = k)
    (hb : b = [] ∨ classOf (b.headD ' ') ≠ k) :
    takeRun k (a ++ b) = (a, b) := by
  induction a with
  | nil =>
    cases b with
    | nil => rfl
    | cons d ds =>
      rcases hb with hb | hb
      · exact absurd hb (by simp)
      · rw [List.headD_cons] at hb
        rw [List.nil_append, takeRun, if_neg hb]
  | cons c cs ih =>
    have hc := ha c (List.mem_cons_self c cs)
    rw [List.cons_append, takeRun, if_pos hc,
      ih (fun x hx => ha x (List.mem_cons_of_mem c hx))]

theorem tokenWF_ne : ∀ (l : List Str), tokenWF l → ∀ t ∈ l, t ≠ []
  | [], _, t, ht => absurd ht (List.not_mem_nil t)
  | u :: us, h, t, ht => by
    rcases List.mem_cons.mp ht with h1 | h1
    · exact h1 ▸ h.1
    · exact tokenWF_ne us h.2.2.2 t h1

/-- A well-formed token list is recovered verbatim by tokenizing its
concatenation. -/
theorem tokenize_wf_join : ∀ (l : List Str), tokenWF l → tokenize (joinStr l) = l := by
  intro l
  induction l with
  | nil => intro _; rfl
  | cons t ts ih =>
    intro h
    obtain ⟨hne, hcls, hadj, hwf⟩ := h
    cases t with
    | nil => exact absurd rfl hne
    | cons c cr =>
      rw [joinStr_cons, List.cons_append, tokenize_cons]
      have hrun : takeRun (classOf c) (cr ++ joinStr ts) = (cr, joinStr ts) := by
        apply takeRun_all
        · intro x hx
          have := hcls x (List.mem_cons_of_mem c hx)
          rwa [List.headD_cons] at this
        · cases ts with
          | nil => exact Or.inl rfl
          | cons u us =>
            refine Or.inr ?_
            have hune := tokenWF_ne (u :: us) hwf u (List.mem_cons_self u us)
            cases u with
            | nil => exact absurd rfl hune
            | cons d ds =>
              rw [joinStr_cons, List.cons_append, List.headD_cons]
              have hadj2 : classOf ((d :: ds).headD ' ') ≠ classOf ((c :: cr).headD ' ') :=
                hadj
              rw [List.headD_cons, List.headD_cons] at hadj2
              exact hadj2
      rw [hrun]
      exact congrArg _ (ih hwf)

/-- The text the forward pass emits for an all-lowercase word token: the
matching dictionary key if any, else the token itself (proof-side
characterisation of `fwdStep`, used by the C1 round-trip argument). -/
def emitOf (dict : Dict) (t : Str) : Str :=
  match dictFindFull dict t with
  | some e => e.1
  | none => t

def c1Emit (dict : Dict) (t : Str) : Str :=
  if t.any (fun c => !(isWordChar c)) then t else emitOf dict t

/-- Whether the forward pass appends `_type` for this token: only a full
dictionary hit consults the preceding raw token. -/
def c1Ty (dict : Dict) (prev : Option Str) (t : Str) : Bool :=
  match dictFindFull dict t with
  | some _ => prevIsColonArrow prev
  | none => false

/-- Store contents produced by the forward pass over lowercase word
tokens: one term record per word token, keyed by the occurrence-indexed
identifier computed against the output accumulated so far. -/
def c1Spec (dict : Dict) : List Str → Option Str → Str → Nat → List (Str × TermRec)
  | [], _, _, _ => []
  | t :: ts, prev, outAcc, pos =>
    if t.any (fun c => !(isWordChar c)) then
      c1Spec dict ts (some t) (outAcc ++ t) (pos + t.length)
    else
      (mkId (lowerStr (emitOf dict t)) (countCI (lowerStr (emitOf dict t)) outAcc + 1)
          (c1Ty dict prev t),
        ⟨t, emitOf dict t, pos, []⟩) ::
        c1Spec dict ts (some t) (outAcc ++ emitOf dict t) (pos + t.length)

/-- Tokens covered by the C1 round trip: nonempty, ASCII, and
all-lowercase unless they contain a non-word character. -/
def c1TokOK (t : Str) : Prop :=
  t ≠ [] ∧ (∀ c ∈ t, c.toNat < 128) ∧
    ((∀ c ∈ t, isLowerAZ c = true) ∨ t.any (fun c => !(isWordChar c)) = true)

/-- Dictionaries covered by the C1 round trip: nonempty lowercase keys
and nonempty lowercase synonyms. -/
def c1DictOK (dict : Dict) : Prop :=
  ∀ e ∈ dict, e.1 ≠ [] ∧ (∀ c ∈ e.1, isLowerAZ c = true) ∧
    ∀ s ∈ e.2, s ≠ [] ∧ ∀ c ∈ s, isLowerAZ c = true

theorem dictFindFull_mem {dict : Dict} {t : Str} {e : Str × List Str}
    (h : dictFindFull dict t = some e) : e ∈ dict :=
  List.mem_of_find?_eq_some h

theorem dictFindFull_syn {dict : Dict} {t : Str} {e : Str × List Str}
    (h : dictFindFull dict t = some e) :
    ∃ s ∈ e.2, lowerStr s = lowerStr t := by
  have hp := List.find?_some h
  simp only [List.any_eq_true, beq_iff_eq] at hp
  exact hp

theorem emitOf_lower {dict : Dict} (hd : c1DictOK dict) {t : Str} (hne : t ≠ [])
    (ht : ∀ c ∈ t, isLowerAZ c = true) :
    emitOf dict t ≠ [] ∧ (∀ c ∈ emitOf dict t, isLowerAZ c = true) := by
  unfold emitOf
  cases hf : dictFindFull dict t with
  | none => exact ⟨hne, ht⟩
  | some e =>
    obtain ⟨hk1, hk2, _⟩ := hd e (dictFindFull_mem hf)
    exact ⟨hk1, hk2⟩

/-- The emitted base never ends in `compound` when neither the token nor
any dictionary key does. -/
theorem emitOf_no_compound {dict : Dict} {t : Str}
    (hsufD : ∀ e ∈ dict, strEnds ("compound".toList) e.1 = false)
    (hsufT : strEnds ("compound".toList) t = false) :
    strEnds ("compound".toList) (emitOf dict t) = false := by
  unfold emitOf
  cases hf : dictFindFull dict t with
  | none => exact hsufT
  | some e => exact hsufD e (dictFindFull_mem hf)

/-- On a lowercase token, a dictionary hit resolves `originalCase` to the
token itself: the matching synonym is lowercase, hence equal to the
token, hence found by the exact search. -/
theorem dict_originalCase {dict : Dict} (hd : c1DictOK dict) {t : Str}
    {e : Str × List Str}
    (ht : ∀ c ∈ t, isLowerAZ c = true) (h : dictFindFull dict t = some e) :
    ((e.2.find? (fun s => s == t)).getD (e.2.headD [])) = t := by
  obtain ⟨s, hs, hls⟩ := dictFindFull_syn h
  obtain ⟨_, _, hsyn⟩ := hd e (dictFindFull_mem h)
  have hst : s = t := by
    rw [lowerStr_of_lower (hsyn s hs).2, lowerStr_of_lower ht] at hls
    exact hls
  subst hst
  have hsome : (e.2.find? (fun x => x == s)).isSome := by
    rw [List.find?_isSome]
    exact ⟨s, hs, by simp⟩
  obtain ⟨x, hx⟩ := Option.isSome_iff_exists.mp hsome
  have hxs := List.find?_some hx
  simp only [beq_iff_eq] at hxs
  rw [hx, Option.getD_some, hxs]

/-- Shape of every record the forward pass stores: identifier
`base_n[_type]` with `base` the lowercase translated text, the count
taken against an extension of `outAcc`, and a nonempty original. -/
theorem c1Spec_shape (dict : Dict) (hd : c1DictOK dict)
    (hsufD : ∀ e ∈ dict, strEnds ("compound".toList) e.1 = false) :
    ∀ (ts : List Str) (prev : Option Str) (outAcc : Str) (pos : Nat),
      (∀ t ∈ ts, c1TokOK t) →
      (∀ t ∈ ts, strEnds ("compound".toList) t = false) →
      ∀ p ∈ c1Spec dict ts prev outAcc pos, ∃ n ty,
        p.1 = mkId p.2.translated n ty ∧ p.2.translated ≠ [] ∧
        (∀ c ∈ p.2.translated, isLowerAZ c = true) ∧
        countCI p.2.translated outAcc + 1 ≤ n ∧ p.2.original ≠ [] ∧
        strEnds ("compound".toList) p.2.translated = false := by
  intro ts
  induction ts with
  | nil =>
    intro prev outAcc pos hok hsuf p hp
    simp [c1Spec] at hp
  | cons t ts ih =>
    intro prev outAcc pos hok hsuf p hp
    rw [c1Spec] at hp
    have hok_ts : ∀ u ∈ ts, c1TokOK u := fun u hu => hok u (List.mem_cons_of_mem t hu)
    have hsuf_ts : ∀ u ∈ ts, strEnds ("compound".toList) u = false :=
      fun u hu => hsuf u (List.mem_cons_of_mem t hu)
    by_cases hany : t.any (fun c => !(isWordChar c)) = true
    · rw [if_pos hany] at hp
      obtain ⟨n, ty, h1, h2, h3, h4, h5, h6⟩ :=
        ih (some t) (outAcc ++ t) _ hok_ts hsuf_ts p hp
      refine ⟨n, ty, h1, h2, h3, ?_, h5, h6⟩
      have := countCI_mono_ne p.2.translated h2 outAcc t
      omega
    · rw [if_neg hany] at hp
      obtain ⟨hne, hascii, hlow | hany2⟩ := hok t (List.mem_cons_self t ts)
      swap
      · exact absurd hany2 hany
      have hE := emitOf_lower hd hne hlow
      have hBE : lowerStr (emitOf dict t) = emitOf dict t := lowerStr_of_lower hE.2
      have hsufE : strEnds ("compound".toList) (emitOf dict t) = false :=
        emitOf_no_compound hsufD (hsuf t (List.mem_cons_self t ts))
      rcases List.mem_cons.mp hp with hp | hp
      · subst hp
        refine ⟨countCI (lowerStr (emitOf dict t)) outAcc + 1, c1Ty dict prev t,
          ?_, hE.1, hE.2, ?_, hne, hsufE⟩
        · rw [hBE]
        · rw [hBE]
      · obtain ⟨n, ty, h1, h2, h3, h4, h5, h6⟩ :=
          ih (some t) (outAcc ++ emitOf dict t) _ hok_ts hsuf_ts p hp
        refine ⟨n, ty, h1, h2, h3, ?_, h5, h6⟩
        have := countCI_mono_ne p.2.translated h2 outAcc (emitOf dict t)
        omega

/-- Every token the tokenizer produces from a covered text is covered. -/
theorem tokens_ok (text : Str)
    (h1 : ∀ c ∈ text, c.toNat < 128)
    (h2 : ∀ c ∈ text, isWordChar c = true → isLowerAZ c = true) :
    ∀ t ∈ tokenize text, c1TokOK t := by
  intro t ht
  have hsub : ∀ c ∈ t, c ∈ text := by
    intro c hc
    have := tokenize_join text
    rw [← this]
    exact List.mem_flatten.mpr ⟨t, ht, hc⟩
  refine ⟨tokenWF_ne _ (tokenize_wf text) t ht, fun c hc => h1 c (hsub c hc), ?_⟩
  by_cases hany : t.any (fun c => !(isWordChar c)) = true
  · exact Or.inr hany
  · refine Or.inl ?_
    intro c hc
    rw [Bool.not_eq_true, List.any_eq_false] at hany
    have hw : isWordChar c = true := by
      have := hany c hc
      simpa using this
    exact h2 c (hsub c hc) hw

/-- `c1Emit` keeps each token nonempty and in its original token class. -/
theorem c1Emit_facts (dict : Dict) (hd : c1DictOK dict) (t : Str) (h : c1TokOK t)
    (hcls : ∀ c ∈ t, classOf c = classOf (t.headD ' ')) :
    c1Emit dict t ≠ [] ∧
    classOf ((c1Emit dict t).headD ' ') = classOf (t.headD ' ') ∧
    (∀ c ∈ c1Emit dict t, classOf c = classOf ((c1Emit dict t).headD ' ')) := by
  obtain ⟨hne, hascii, hlow | hany⟩ := h
  · have hanyf : t.any (fun c => !(isWordChar c)) = false := by
      rw [List.any_eq_false]
      intro c hc
      simp [isWordChar_of_lower (hlow c hc)]
    have hE := emitOf_lower hd hne hlow
    have hemit : c1Emit dict t = emitOf dict t := by
      rw [c1Emit, if_neg (by simp [hanyf])]
    have hEhead : classOf ((emitOf dict t).headD ' ') = .word := by
      cases hEe : emitOf dict t with
      | nil => exact absurd hEe hE.1
      | cons d ds =>
        rw [List.headD_cons]
        exact classOf_word (isWordChar_of_lower (hE.2 d (by rw [hEe]; simp)))
    have hThead : classOf (t.headD ' ') = .word := by
      cases t with
      | nil => exact absurd rfl hne
      | cons c cr =>
        rw [List.headD_cons]
        exact classOf_word (isWordChar_of_lower (hlow c (by simp)))
    rw [hemit]
    refine ⟨hE.1, by rw [hEhead, hThead], ?_⟩
    intro x hx
    rw [hEhead]
    exact classOf_word (isWordChar_of_lower (hE.2 x hx))
  · have hemit : c1Emit dict t = t := by
      rw [c1Emit, if_pos hany]
    rw [hemit]
    exact ⟨hne, rfl, hcls⟩

/-- The emitted token list is well formed, so tokenizing the output
recovers it. -/
theorem tokenWF_map_c1 (dict : Dict) (hd : c1DictOK dict) :
    ∀ ts : List Str, tokenWF ts → (∀ t ∈ ts, c1TokOK t) →
      tokenWF (ts.map (c1Emit dict)) := by
  intro ts
  induction ts with
  | nil =>
    intro _ _
    trivial
  | cons t us ih =>
    intro hwf hok
    obtain ⟨hne, hcls, hadj, hrest⟩ := hwf
    have hf := c1Emit_facts dict hd t (hok t (List.mem_cons_self t us)) hcls
    rw [List.map_cons]
    refine ⟨hf.1, hf.2.2, ?_, ih hrest (fun u hu => hok u (List.mem_cons_of_mem t hu))⟩
    cases us with
    | nil => trivial
    | cons u vs =>
      rw [List.map_cons]
      have hadj2 : classOf (u.headD ' ') ≠ classOf (t.headD ' ') := hadj
      have hu := c1Emit_facts dict hd u (hok u (by simp)) hrest.2.1
      show classOf ((c1Emit dict u).headD ' ') ≠ classOf ((c1Emit dict t).headD ' ')
      rw [hu.2.1, hf.2.1]
      exact hadj2

/-- Invariant on stored terms during the forward pass: every identifier
is `base_n[_type]` for its own lowercase translated text, with an index
not exceeding the occurrence count in the output emitted so far. -/
def c1TermInv (terms : List (Str × TermRec)) (out : Str) : Prop :=
  ∀ p ∈ terms, ∃ n ty,
    p.1 = mkId p.2.translated n ty ∧ p.2.translated ≠ [] ∧
    (∀ c ∈ p.2.translated, isLowerAZ c = true) ∧
    n ≤ countCI p.2.translated out

/-- Exact characterisation of the forward pass on covered tokens: each
word token emits its dictionary key (or itself) and appends one freshly
keyed term record; dictionary, dirty flag and compound tables are
untouched. -/
theorem c1_fwd (dict : Dict) (hd : c1DictOK dict) :
    ∀ (ts : List Str) (prev : Option Str) (st : FwdState),
      (∀ t ∈ ts, c1TokOK t) → st.dict = dict →
      c1TermInv st.store.terms (joinStr st.out) →
      fwdGo .latin prev st ts =
        { out := st.out ++ ts.map (c1Emit dict),
          store := { st.store with
            terms := st.store.terms ++ c1Spec dict ts prev (joinStr st.out) st.pos },
          dict := st.dict, updated := st.updated,
          pos := st.pos + (ts.map List.length).sum } := by
  intro ts
  induction ts with
  | nil =>
    intro prev st hok hdict hinv
    simp [fwdGo, c1Spec]
  | cons t ts ih =>
    intro prev st hok hdict hinv
    have hok_ts : ∀ u ∈ ts, c1TokOK u := fun u hu => hok u (List.mem_cons_of_mem t hu)
    rw [List.map_cons, fwdGo]
    by_cases hany : t.any (fun c => !(isWordChar c)) = true
    · have hstep : fwdStep .latin prev st t =
          { st with out := st.out ++ [t], pos := st.pos + t.length } := by
        rw [fwdStep, if_pos hany]
      have hjoin : joinStr (st.out ++ [t]) = joinStr st.out ++ t := by simp
      have hinv' : c1TermInv st.store.terms (joinStr (st.out ++ [t])) := by
        intro p hp
        obtain ⟨n, ty, hsh, hne, hlo, hb⟩ := hinv p hp
        refine ⟨n, ty, hsh, hne, hlo, ?_⟩
        rw [hjoin]
        have := countCI_mono_ne p.2.translated hne (joinStr st.out) t
        omega
      have hihres := ih (some t)
        { st with out := st.out ++ [t], pos := st.pos + t.length } hok_ts hdict hinv'
      rw [hstep, hihres]
      have hemit : c1Emit dict t = t := by rw [c1Emit, if_pos hany]
      have hspec : c1Spec dict (t :: ts) prev (joinStr st.out) st.pos =
          c1Spec dict ts (some t) (joinStr st.out ++ t) (st.pos + t.length) := by
        rw [c1Spec, if_pos hany]
      simp [hemit, hspec, hjoin, Nat.add_assoc]
    · obtain ⟨hne, hascii, hlow | hany2⟩ := hok t (List.mem_cons_self t ts)
      swap
      · exact absurd hany2 hany
      have hanyf : t.any (fun c => !(isWordChar c)) = false := Bool.eq_false_iff.mpr hany
      have hlowT : lowerStr t = t := lowerStr_of_lower hlow
      cases hf : dictFindFull dict t with
      | some e =>
        have hkeyfacts := hd e (dictFindFull_mem hf)
        have hlowE : lowerStr e.1 = e.1 := lowerStr_of_lower hkeyfacts.2.1
        have hmc : matchCase t e.1 = e.1 := matchCase_of_lower hlow hkeyfacts.2.1
        have horig : ((e.2.find? (fun s => s == t)).getD (e.2.headD [])) = t :=
          dict_originalCase hd hlow hf
        have hEOf : emitOf dict t = e.1 := by
          unfold emitOf
          rw [hf]
        have hc1ty : c1Ty dict prev t = prevIsColonArrow prev := by
          unfold c1Ty
          rw [hf]
        have hstep : fwdStep .latin prev st t =
            { st with
              out := st.out ++ [e.1],
              store := { st.store with terms := updA st.store.terms (mkId e.1 (countCI e.1 (joinStr st.out) + 1) (prevIsColonArrow prev)) ⟨t, e.1, st.pos, []⟩ },
              pos := st.pos + t.length } := by
          rw [fwdStep, if_neg hany, hdict, hf]
          simp only [hmc, horig, hlowE, addTerm]
          simp
        have hfresh : lookupA st.store.terms
            (mkId e.1 (countCI e.1 (joinStr st.out) + 1) (prevIsColonArrow prev)) =
            none := by
          apply lookupA_none_of_no_key
          intro p hp hpk
          obtain ⟨n, ty, hsh, hvne, hvlo, hb⟩ := hinv p hp
          rw [hsh] at hpk
          obtain ⟨hb1, hb2, _⟩ := mkId_inj (lower_no_underscore hvlo)
            (lower_no_underscore hkeyfacts.2.1) hpk
          rw [hb1] at hb
          omega
        rw [updA_fresh _ hfresh] at hstep
        have hjoin : joinStr (st.out ++ [e.1]) = joinStr st.out ++ e.1 := by simp
        have hinv' : c1TermInv
            (st.store.terms ++
              [(mkId e.1 (countCI e.1 (joinStr st.out) + 1) (prevIsColonArrow prev),
                ⟨t, e.1, st.pos, []⟩)])
            (joinStr (st.out ++ [e.1])) := by
          intro p hp
          rw [hjoin]
          rcases List.mem_append.mp hp with hp | hp
          · obtain ⟨n, ty, hsh, hne2, hlo, hb⟩ := hinv p hp
            refine ⟨n, ty, hsh, hne2, hlo, ?_⟩
            have := countCI_mono_ne p.2.translated hne2 (joinStr st.out) e.1
            omega
          · rw [List.mem_singleton] at hp
            subst hp
            refine ⟨countCI e.1 (joinStr st.out) + 1, prevIsColonArrow prev, rfl,
              hkeyfacts.1, hkeyfacts.2.1, ?_⟩
            exact countCI_append_self_ne e.1 (joinStr st.out) e.1 hkeyfacts.1 rfl
        have hihres := ih (some t)
            { st with
              out := st.out ++ [e.1],
              store := { st.store with terms := st.store.terms ++ [(mkId e.1 (countCI e.1 (joinStr st.out) + 1) (prevIsColonArrow prev), ⟨t, e.1, st.pos, []⟩)] },
              pos := st.pos + t.length } hok_ts hdict hinv'
        rw [hstep, hihres]
        have hemit : c1Emit dict t = e.1 := by
          rw [c1Emit, if_neg hany, hEOf]
        have hspec : c1Spec dict (t :: ts) prev (joinStr st.out) st.pos =
            (mkId e.1 (countCI e.1 (joinStr st.out) + 1) (prevIsColonArrow prev),
              (⟨t, e.1, st.pos, []⟩ : TermRec)) ::
            c1Spec dict ts (some t) (joinStr st.out ++ e.1) (st.pos + t.length) := by
          rw [c1Spec, if_neg hany, hEOf, hlowE, hc1ty]
        simp [hemit, hspec, hjoin, Nat.add_assoc]
      | none =>
        have hsplit : splitCompound t = [t] := splitCompound_all_lower t hne hlow
        have hEOf : emitOf dict t = t := by
          unfold emitOf
          rw [hf]
        have hc1ty : c1Ty dict prev t = false := by
          unfold c1Ty
          rw [hf]
        have hstep : fwdStep .latin prev st t =
            { st with
              out := st.out ++ [t],
              store := { st.store with terms := updA st.store.terms (mkId t (countCI t (joinStr st.out) + 1) false) ⟨t, t, st.pos, []⟩ },
              pos := st.pos + t.length } := by
          rw [fwdStep, if_neg hany, hdict, hf]
          simp only [hsplit, List.length_singleton, hlowT, addTerm]
          simp
        have hfresh : lookupA st.store.terms
            (mkId t (countCI t (joinStr st.out) + 1) false) = none := by
          apply lookupA_none_of_no_key
          intro p hp hpk
          obtain ⟨n, ty, hsh, hvne, hvlo, hb⟩ := hinv p hp
          rw [hsh] at hpk
          obtain ⟨hb1, hb2, _⟩ := mkId_inj (lower_no_underscore hvlo)
            (lower_no_underscore hlow) hpk
          rw [hb1] at hb
          omega
        rw [updA_fresh _ hfresh] at hstep
        have hjoin : joinStr (st.out ++ [t]) = joinStr st.out ++ t := by simp
        have hinv' : c1TermInv
            (st.store.terms ++
              [(mkId t (countCI t (joinStr st.out) + 1) false, ⟨t, t, st.pos, []⟩)])
            (joinStr (st.out ++ [t])) := by
          intro p hp
          rw [hjoin]
          rcases List.mem_append.mp hp with hp | hp
          · obtain ⟨n, ty, hsh, hne2, hlo, hb⟩ := hinv p hp
            refine ⟨n, ty, hsh, hne2, hlo, ?_⟩
            have := countCI_mono_ne p.2.translated hne2 (joinStr st.out) t
            omega
          · rw [List.mem_singleton] at hp
            subst hp
            refine ⟨countCI t (joinStr st.out) + 1, false, rfl, hne, hlow, ?_⟩
            exact countCI_append_self_ne t (joinStr st.out) t hne rfl
        have hihres := ih (some t)
            { st with
              out := st.out ++ [t],
              store := { st.store with terms := st.store.terms ++ [(mkId t (countCI t (joinStr st.out) + 1) false, ⟨t, t, st.pos, []⟩)] },
              pos := st.pos + t.length } hok_ts hdict hinv'
        rw [hstep, hihres]
        have hemit : c1Emit dict t = t := by
          rw [c1Emit, if_neg hany, hEOf]
        have hspec : c1Spec dict (t :: ts) prev (joinStr st.out) st.pos =
            (mkId t (countCI t (joinStr st.out) + 1) false,
              (⟨t, t, st.pos, []⟩ : TermRec)) ::
            c1Spec dict ts (some t) (joinStr st.out ++ t) (st.pos + t.length) := by
          rw [c1Spec, if_neg hany, hEOf, hlowT, hc1ty]
        simp [hemit, hspec, hjoin, Nat.add_assoc]

theorem lookupA_append_none {β : Type} {a : List (Str × β)} (b : List (Str × β))
    {k : Str} (h : lookupA a k = none) : lookupA (a ++ b) k = lookupA b k := by
  induction a with
  | nil => rfl
  | cons p rest ih =>
    rw [lookupA] at h
    by_cases hp : p.1 = k
    · rw [if_pos hp] at h
      exact absurd h (by simp)
    · rw [if_neg hp] at h
      rw [List.cons_append, lookupA, if_neg hp]
      exact ih h

theorem lookupA_map_orig (l : List (Str × TermRec)) (k : Str) :
    lookupA (l.map (fun p => (p.1, p.2.original))) k =
      (lookupA l k).map (fun r => r.original) := by
  induction l with
  | nil => rfl
  | cons p rest ih =>
    by_cases hp : p.1 = k
    · simp [lookupA, hp]
    · simp [lookupA, hp, ih]

/-- Bound carried over already-replayed records during the backward pass:
their occurrence index is at most the count in the text already consumed
(so the identifier recomputed for the current token cannot collide with
them), and their bases do not end in `compound` (so their identifiers are
visible through the `compound_` filter of `getAllTerms`). -/
def c1DoneInv (Ldone : List (Str × TermRec)) (outAcc : Str) : Prop :=
  ∀ p ∈ Ldone, ∃ n ty,
    p.1 = mkId p.2.translated n ty ∧ p.2.translated ≠ [] ∧
    (∀ c ∈ p.2.translated, isLowerAZ c = true) ∧
    n ≤ countCI p.2.translated outAcc ∧ p.2.original ≠ [] ∧
    strEnds ("compound".toList) p.2.translated = false

/-- Replay of the backward pass over the forward characterisation: with
the store holding the already-replayed records followed by the records of
the remaining tokens, every emitted token resolves back to its original
token (for any loop index `i`, since both identifier variants are tried). -/
theorem c1_bwd (dict : Dict) (hd : c1DictOK dict)
    (hsufD : ∀ e ∈ dict, strEnds ("compound".toList) e.1 = false) :
    ∀ (ts : List Str) (Ldone : List (Str × TermRec)) (prev : Option Str)
      (outAcc : Str) (posS : Nat) (i : Nat) (full : Str),
      (∀ t ∈ ts, c1TokOK t) →
      (∀ t ∈ ts, strEnds ("compound".toList) t = false) →
      full = outAcc ++ joinStr (ts.map (c1Emit dict)) →
      c1DoneInv Ldone outAcc →
      bwdGo ⟨Ldone ++ c1Spec dict ts prev outAcc posS, [], [], 0⟩ dict true full
        i outAcc.length (ts.map (c1Emit dict)) = ts := by
  intro ts
  induction ts with
  | nil =>
    intro Ldone prev outAcc posS i full hok hsuf hfull hLd
    simp [c1Spec, bwdGo]
  | cons t ts ih =>
    intro Ldone prev outAcc posS i full hok hsuf hfull hLd
    have hok_ts : ∀ u ∈ ts, c1TokOK u := fun u hu => hok u (List.mem_cons_of_mem t hu)
    have hsuf_ts : ∀ u ∈ ts, strEnds ("compound".toList) u = false :=
      fun u hu => hsuf u (List.mem_cons_of_mem t hu)
    obtain ⟨hne, hascii, hcase⟩ := hok t (List.mem_cons_self t ts)
    have htake : List.take outAcc.length full = outAcc := by
      rw [hfull]
      exact List.take_left outAcc _
    rw [List.map_cons, bwdGo]
    by_cases hany : t.any (fun c => !(isWordChar c)) = true
    · have hemit : c1Emit dict t = t := by rw [c1Emit, if_pos hany]
      have hspec : c1Spec dict (t :: ts) prev outAcc posS =
          c1Spec dict ts (some t) (outAcc ++ t) (posS + t.length) := by
        rw [c1Spec, if_pos hany]
      have hLd' : c1DoneInv Ldone (outAcc ++ t) := by
        intro p hp
        obtain ⟨n, ty, h1, h2, h3, h4, h5, h6⟩ := hLd p hp
        refine ⟨n, ty, h1, h2, h3, ?_, h5, h6⟩
        have := countCI_mono_ne p.2.translated h2 outAcc t
        omega
      have hfull' : full = (outAcc ++ t) ++ joinStr (ts.map (c1Emit dict)) := by
        rw [hfull, List.map_cons, joinStr_cons, hemit, List.append_assoc]
      rw [htake, hemit, hspec]
      have hstepP : ∀ fb : Bool, bwdStep
          ⟨Ldone ++ c1Spec dict ts (some t) (outAcc ++ t) (posS + t.length), [], [], 0⟩
          dict true fb outAcc t = t := by
        intro fb
        rw [bwdStep, if_pos hany]
      rw [hstepP]
      congr 1
      have hlenP : outAcc.length + t.length = (outAcc ++ t).length :=
        (List.length_append _ _).symm
      rw [hlenP]
      exact ih Ldone (some t) (outAcc ++ t) (posS + t.length) (i + 1) full
        hok_ts hsuf_ts hfull' hLd'
    · obtain hlow | hany2 := hcase
      swap
      · exact absurd hany2 hany
      have hE := emitOf_lower hd hne hlow
      have hlowE : lowerStr (emitOf dict t) = emitOf dict t := lowerStr_of_lower hE.2
      have hemit : c1Emit dict t = emitOf dict t := by rw [c1Emit, if_neg hany]
      have hsufE : strEnds ("compound".toList) (emitOf dict t) = false :=
        emitOf_no_compound hsufD (hsuf t (List.mem_cons_self t ts))
      have hanyE : (emitOf dict t).any (fun c => !(isWordChar c)) = false := by
        rw [List.any_eq_false]
        intro c hc
        simp [isWordChar_of_lower (hE.2 c hc)]
      have hspec : c1Spec dict (t :: ts) prev outAcc posS =
          (mkId (emitOf dict t) (countCI (emitOf dict t) outAcc + 1) (c1Ty dict prev t), (⟨t, emitOf dict t, posS, []⟩ : TermRec)) :: c1Spec dict ts (some t) (outAcc ++ emitOf dict t) (posS + t.length) := by
        rw [c1Spec, if_neg hany, hlowE]
      have hshape_tail := c1Spec_shape dict hd hsufD ts (some t)
        (outAcc ++ emitOf dict t) (posS + t.length) hok_ts hsuf_ts
      have hLdone_none : ∀ b : Bool, lookupA Ldone (mkId (emitOf dict t) (countCI (emitOf dict t) outAcc + 1) b) = none := by
        intro b
        apply lookupA_none_of_no_key
        intro p hp hpk
        obtain ⟨n, ty, h1, h2, h3, h4, h5, h6⟩ := hLd p hp
        rw [h1] at hpk
        obtain ⟨hb1, hb2, _⟩ := mkId_inj (lower_no_underscore h3)
          (lower_no_underscore hE.2) hpk
        rw [hb1] at h4
        omega
      have htail_none : ∀ b : Bool, lookupA (c1Spec dict ts (some t) (outAcc ++ emitOf dict t) (posS + t.length)) (mkId (emitOf dict t) (countCI (emitOf dict t) outAcc + 1) b) = none := by
        intro b
        apply lookupA_none_of_no_key
        intro p hp hpk
        obtain ⟨n, ty, h1, h2, h3, h4, h5, h6⟩ := hshape_tail p hp
        rw [h1] at hpk
        obtain ⟨hb1, hb2, _⟩ := mkId_inj (lower_no_underscore h3)
          (lower_no_underscore hE.2) hpk
        have hgrow := countCI_append_self_ne (emitOf dict t) outAcc (emitOf dict t)
          hE.1 rfl
        rw [hb1] at h4
        omega
      have hlookup : ∀ b : Bool, lookupA (Ldone ++ (mkId (emitOf dict t) (countCI (emitOf dict t) outAcc + 1) (c1Ty dict prev t), (⟨t, emitOf dict t, posS, []⟩ : TermRec)) :: c1Spec dict ts (some t) (outAcc ++ emitOf dict t) (posS + t.length)) (mkId (emitOf dict t) (countCI (emitOf dict t) outAcc + 1) b) =
          if b = c1Ty dict prev t
          then some (⟨t, emitOf dict t, posS, []⟩ : TermRec)
          else none := by
        intro b
        rw [lookupA_append_none _ (hLdone_none b)]
        by_cases hb : b = c1Ty dict prev t
        · rw [if_pos hb, lookupA,
            if_pos (show mkId (emitOf dict t) (countCI (emitOf dict t) outAcc + 1) (c1Ty dict prev t) = mkId (emitOf dict t) (countCI (emitOf dict t) outAcc + 1) b from by rw [hb])]
        · rw [if_neg hb, lookupA, if_neg, htail_none b]
          intro hk
          obtain ⟨_, _, hty⟩ := mkId_inj (lower_no_underscore hE.2)
            (lower_no_underscore hE.2) hk
          exact hb hty.symm
      have hkeep : ∀ p ∈ (Ldone ++ (mkId (emitOf dict t) (countCI (emitOf dict t) outAcc + 1) (c1Ty dict prev t), (⟨t, emitOf dict t, posS, []⟩ : TermRec)) :: c1Spec dict ts (some t) (outAcc ++ emitOf dict t) (posS + t.length)),
          p.2.original ≠ [] ∧ strIncludes ("compound_".toList) p.1 = false := by
        intro p hp
        rcases List.mem_append.mp hp with hp | hp
        · obtain ⟨n, ty, h1, h2, h3, h4, h5, h6⟩ := hLd p hp
          refine ⟨h5, ?_⟩
          rw [h1]
          exact mkId_no_compound n ty h3 h6
        · rcases List.mem_cons.mp hp with hp | hp
          · rw [hp]
            exact ⟨hne, mkId_no_compound _ _ hE.2 hsufE⟩
          · obtain ⟨n, ty, h1, h2, h3, h4, h5, h6⟩ := hshape_tail p hp
            refine ⟨h5, ?_⟩
            rw [h1]
            exact mkId_no_compound n ty h3 h6
      have hallT : ∀ b : Bool, allTermsLookup (⟨Ldone ++ (mkId (emitOf dict t) (countCI (emitOf dict t) outAcc + 1) (c1Ty dict prev t), (⟨t, emitOf dict t, posS, []⟩ : TermRec)) :: c1Spec dict ts (some t) (outAcc ++ emitOf dict t) (posS + t.length), [], [], 0⟩ : Store) (mkId (emitOf dict t) (countCI (emitOf dict t) outAcc + 1) b) =
          if b = c1Ty dict prev t then some t else none := by
        intro b
        have hget : getAllTerms (⟨Ldone ++ (mkId (emitOf dict t) (countCI (emitOf dict t) outAcc + 1) (c1Ty dict prev t), (⟨t, emitOf dict t, posS, []⟩ : TermRec)) :: c1Spec dict ts (some t) (outAcc ++ emitOf dict t) (posS + t.length), [], [], 0⟩ : Store) =
            (Ldone ++ (mkId (emitOf dict t) (countCI (emitOf dict t) outAcc + 1) (c1Ty dict prev t), (⟨t, emitOf dict t, posS, []⟩ : TermRec)) :: c1Spec dict ts (some t) (outAcc ++ emitOf dict t) (posS + t.length)).map (fun p => (p.1, p.2.original)) :=
          filterMap_terms_eq_map _ hkeep
        rw [allTermsLookup, hget, lookupA_map_orig, hlookup b]
        by_cases hb : b = c1Ty dict prev t
        · rw [if_pos hb, if_pos hb]
          rfl
        · rw [if_neg hb, if_neg hb]
          rfl
      have hsome : allTermsLookup (⟨Ldone ++ (mkId (emitOf dict t) (countCI (emitOf dict t) outAcc + 1) (c1Ty dict prev t), (⟨t, emitOf dict t, posS, []⟩ : TermRec)) :: c1Spec dict ts (some t) (outAcc ++ emitOf dict t) (posS + t.length), [], [], 0⟩ : Store)
          (mkId (emitOf dict t) (countCI (emitOf dict t) outAcc + 1) (c1Ty dict prev t)) = some t := by
        rw [hallT, if_pos rfl]
      have hnone : allTermsLookup (⟨Ldone ++ (mkId (emitOf dict t) (countCI (emitOf dict t) outAcc + 1) (c1Ty dict prev t), (⟨t, emitOf dict t, posS, []⟩ : TermRec)) :: c1Spec dict ts (some t) (outAcc ++ emitOf dict t) (posS + t.length), [], [], 0⟩ : Store)
          (mkId (emitOf dict t) (countCI (emitOf dict t) outAcc + 1) (!(c1Ty dict prev t))) = none := by
        rw [hallT, if_neg (by cases c1Ty dict prev t <;> simp)]
      have hhit : ∀ β : Bool, bwdIdentHit (⟨Ldone ++ (mkId (emitOf dict t) (countCI (emitOf dict t) outAcc + 1) (c1Ty dict prev t), (⟨t, emitOf dict t, posS, []⟩ : TermRec)) :: c1Spec dict ts (some t) (outAcc ++ emitOf dict t) (posS + t.length), [], [], 0⟩ : Store) β
          (mkId (emitOf dict t) (countCI (emitOf dict t) outAcc + 1) true) (mkId (emitOf dict t) (countCI (emitOf dict t) outAcc + 1) false) = some t := by
        intro β
        cases hty : c1Ty dict prev t
        · rw [hty] at hsome hnone
          simp only [Bool.not_false] at hnone
          cases β <;> simp [bwdIdentHit, hsome, hnone]
        · rw [hty] at hsome hnone
          simp only [Bool.not_true] at hnone
          cases β <;> simp [bwdIdentHit, hsome, hnone]
      have hcomp : getCompoundByTranslated (⟨Ldone ++ (mkId (emitOf dict t) (countCI (emitOf dict t) outAcc + 1) (c1Ty dict prev t), (⟨t, emitOf dict t, posS, []⟩ : TermRec)) :: c1Spec dict ts (some t) (outAcc ++ emitOf dict t) (posS + t.length), [], [], 0⟩ : Store)
          (emitOf dict t) = none := rfl
      have hstepW : ∀ fb : Bool, bwdStep (⟨Ldone ++ (mkId (emitOf dict t) (countCI (emitOf dict t) outAcc + 1) (c1Ty dict prev t), (⟨t, emitOf dict t, posS, []⟩ : TermRec)) :: c1Spec dict ts (some t) (outAcc ++ emitOf dict t) (posS + t.length), [], [], 0⟩ : Store) dict true fb outAcc
          (emitOf dict t) = t := by
        intro fb
        rw [bwdStep, if_neg (by simp [hanyE])]
        rw [bwdResolve]
        simp only [hcomp, Option.none_bind, eq_self_iff_true, if_true]
        rw [hlowE]
        rw [hhit (!fb && typeCheckBefore outAcc)]
        simp [matchCase_of_lower hE.2 hlow]
      rw [htake, hemit, hspec, hstepW]
      congr 1
      have hlenW : outAcc.length + (emitOf dict t).length =
          (outAcc ++ emitOf dict t).length := (List.length_append _ _).symm
      have hfull' : full = (outAcc ++ emitOf dict t) ++ joinStr (ts.map (c1Emit dict)) := by
        rw [hfull, List.map_cons, joinStr_cons, hemit, List.append_assoc]
      have hLd'' : c1DoneInv (Ldone ++ [(mkId (emitOf dict t) (countCI (emitOf dict t) outAcc + 1) (c1Ty dict prev t), (⟨t, emitOf dict t, posS, []⟩ : TermRec))]) (outAcc ++ emitOf dict t) := by
        intro p hp
        rcases List.mem_append.mp hp with hp | hp
        · obtain ⟨n, ty, h1, h2, h3, h4, h5, h6⟩ := hLd p hp
          refine ⟨n, ty, h1, h2, h3, ?_, h5, h6⟩
          have := countCI_mono_ne p.2.translated h2 outAcc (emitOf dict t)
          omega
        · rw [List.mem_singleton] at hp
          subst hp
          refine ⟨countCI (emitOf dict t) outAcc + 1, c1Ty dict prev t, rfl, hE.1,
            hE.2, ?_, hne, hsufE⟩
          exact countCI_append_self_ne (emitOf dict t) outAcc (emitOf dict t) hE.1 rfl
      rw [hlenW, List.append_cons]
      exact ih (Ldone ++ [(mkId (emitOf dict t) (countCI (emitOf dict t) outAcc + 1) (c1Ty dict prev t), (⟨t, emitOf dict t, posS, []⟩ : TermRec))]) (some t) (outAcc ++ emitOf dict t) (posS + t.length)
        (i + 1) full hok_ts hsuf_ts hfull' hLd''

/-! ### Claim theorems -/

/-- C3: the tokenizer's three token classes (letter/mark/number runs,
non-space symbol runs, whitespace runs) are mutually exclusive and
exhaustive - every character of the input belongs to exactly one token
(tokens are nonempty, single-class, and adjacent tokens have different
classes) - and concatenating the token sequence produced by the token
regex reproduces the input string exactly. -/
theorem c3_tokenize_lossless_partition (s : Str) :
    joinStr (tokenize s) = s ∧ tokenWF (tokenize s) :=
  ⟨tokenize_join s, tokenize_wf s⟩

theorem splitCompoundAux_letters (s : Str)
    (h : ∀ c ∈ s, isUpperAZ c || isLowerAZ c) :
    joinStr (splitCompoundAux s) = s ∧
    ∀ part ∈ splitCompoundAux s, part ≠ [] ∧
      (isUpperAZ (part.headD ' ') || isLowerAZ (part.headD ' ')) = true ∧
      ∀ x ∈ part.tail, isLowerAZ x := by
  generalize hn : s.length = n
  induction n using Nat.strong_induction_on generalizing s with
  | _ n ih =>
    cases s with
    | nil =>
      constructor
      · rfl
      · intro part hp
        simp [splitCompoundAux, splitGo] at hp
    | cons c rest =>
      have hc : isUpperAZ c || isLowerAZ c := h c (by simp)
      have h1 : splitCompoundAux (c :: rest) =
          (c :: (takeLowerRun rest).1) :: splitGo rest.length (takeLowerRun rest).2 := by
        show splitGo (rest.length + 1) (c :: rest) = _
        rw [splitGo, if_pos hc]
      have hsub : ∀ x ∈ (takeLowerRun rest).2, isUpperAZ x || isLowerAZ x := by
        intro x hx
        apply h
        have := takeLowerRun_append rest
        rw [← this]
        simp only [List.mem_cons, List.mem_append]
        right
        right
        exact hx
      have hlen2 : (takeLowerRun rest).2.length < n := by
        have := takeLowerRun_snd_length rest
        simp only [List.length_cons] at hn
        omega
      have haux : splitGo rest.length (takeLowerRun rest).2 =
          splitCompoundAux (takeLowerRun rest).2 := by
        rw [splitCompoundAux]
        exact splitGo_fuel rest.length _ _ (takeLowerRun_snd_length rest) le_rfl
      have hrec := ih _ hlen2 (takeLowerRun rest).2 hsub rfl
      rw [h1, haux]
      constructor
      · rw [joinStr_cons, hrec.1, List.cons_append, takeLowerRun_append]
      · intro part hp
        simp only [List.mem_cons] at hp
        rcases hp with hp | hp
        · subst hp
          refine ⟨by simp, by simpa using hc, ?_⟩
          intro x hx
          simp only [List.tail_cons] at hx
          exact takeLowerRun_fst_lower rest x hx
        · exact hrec.2 part hp

/-- C8: on latin-script word tokens, compound segmentation returns, in
order, exactly the maximal matches of one-uppercase-then-lowercase-run or
a lowercase run: `splitCompound "camelCaseWord" = ["camel","Case","Word"]`,
`splitCompound "lowercase"` is the single part `["lowercase"]` (so no
compound is registered for it, witnessed by the empty compound table of a
forward run), and in general on a nonempty token of ASCII letters the
parts are nonempty, concatenate back to the token, and each part is one
letter followed by a (maximal) lowercase run. -/
theorem c8_splitCompound_maximal_matches :
    splitCompound "camelCaseWord".toList =
      ["camel".toList, "Case".toList, "Word".toList] ∧
    splitCompound "lowercase".toList = ["lowercase".toList] ∧
    (translateToTarget "lowercase".toList []).store.compounds = [] ∧
    (∀ term : Str, term ≠ [] → (∀ c ∈ term, isUpperAZ c || isLowerAZ c) →
      joinStr (splitCompound term) = term ∧
      ∀ part ∈ splitCompound term, part ≠ [] ∧
        (isUpperAZ (part.headD ' ') || isLowerAZ (part.headD ' ')) = true ∧
        ∀ x ∈ part.tail, isLowerAZ x) := by
  refine ⟨by decide, by decide, by decide, ?_⟩
  intro term hne hletters
  have haux := splitCompoundAux_letters term hletters
  have hauxne : splitCompoundAux term ≠ [] := by
    cases term with
    | nil => exact absurd rfl hne
    | cons c rest =>
      have h1 : splitCompoundAux (c :: rest) =
          (c :: (takeLowerRun rest).1) :: splitGo rest.length (takeLowerRun rest).2 := by
        show splitGo (rest.length + 1) (c :: rest) = _
        rw [splitGo, if_pos (hletters c (by simp))]
      rw [h1]
      simp
  have hsplit : splitCompound term = splitCompoundAux term := by
    rw [splitCompound]
    simp only [if_neg hauxne]
    apply List.filter_eq_self.mpr
    intro part hp
    exact decide_eq_true ((haux.2 part hp).1)
  rw [hsplit]
  exact haux

/-- Closed witness for C8: the general clause applied to
`"camelCaseWord"`. -/
theorem c8_splitCompound_maximal_matches_witness :
    joinStr (splitCompound "camelCaseWord".toList) = "camelCaseWord".toList :=
  (c8_splitCompound_maximal_matches.2.2.2 "camelCaseWord".toList
    (by decide) (by decide)).1

/-- C10: for every input string and dictionary contents, each of
`segmentLogographic`, `segmentDevanagari` and `segmentCyrillic` is total
with every loop step consuming at least one character (all returned
segments are nonempty), and the concatenation of the returned segments is
the input - a dictionary miss degrades to a single-character segment,
never a dropped or duplicated character. -/
theorem c10_segmenters_total_lossless (keys : List Str) (text : Str) :
    joinStr (segmentLogographic keys text) = text ∧
    (∀ s ∈ segmentLogographic keys text, s ≠ []) ∧
    joinStr (segmentDevanagari keys text) = text ∧
    (∀ s ∈ segmentDevanagari keys text, s ≠ []) ∧
    joinStr (segmentCyrillic keys text) = text ∧
    (∀ s ∈ segmentCyrillic keys text, s ≠ []) :=
  ⟨segGo_join keys true text, segGo_nonempty keys true text,
   segGo_join keys false text, segGo_nonempty keys false text,
   segGo_join keys false text, segGo_nonempty keys false text⟩

/-- Closed witness for C10 at a concrete dictionary and text. -/
theorem c10_segmenters_total_lossless_witness :
    joinStr (segmentLogographic ["ab".toList] "aabz".toList) = "aabz".toList :=
  (c10_segmenters_total_lossless ["ab".toList] "aabz".toList).1

theorem mappingsDoc_bwdGo_id (store : Store) (dict : Dict) (ts : List Str)
    (h : ∀ t ∈ ts, (t.any (fun c => !(isWordChar c)) = true) ∨ t ∈ PROTECTED_KEYWORDS) :
    ∀ pos, MappingsDoc.bwdGo store dict pos ts = ts := by
  induction ts with
  | nil => intro pos; rfl
  | cons t rest ih =>
    intro pos
    rw [MappingsDoc.bwdGo]
    have ht := h t (by simp)
    have hstep : MappingsDoc.bwdStep store dict pos t = t := by
      rw [MappingsDoc.bwdStep]
      rcases ht with ht | ht
      · rw [if_pos (by simp [ht])]
      · rw [if_pos (by simp [ht])]
    rw [hstep, ih (fun x hx => h x (by simp [hx]))]

/-- C5: in the protected-keyword variant of `translateToOriginal`
(src/src/mappings.ts), a token of the protected-keyword set passes
through unchanged, exactly as punctuation and whitespace tokens do: the
per-token step is the identity on both, for every store, dictionary and
position - and a text all of whose tokens are protected or
punctuation/whitespace is returned verbatim. -/
theorem c5_protected_keywords_pass_through (store : Store) (dict : Dict)
    (pos : Nat) (token : Str) (text : Str) :
    (token ∈ PROTECTED_KEYWORDS →
      MappingsDoc.bwdStep store dict pos token = token) ∧
    (token.any (fun c => !(isWordChar c)) = true →
      MappingsDoc.bwdStep store dict pos token = token) ∧
    ((∀ t ∈ tokenize text,
        (t.any (fun c => !(isWordChar c)) = true) ∨ t ∈ PROTECTED_KEYWORDS) →
      MappingsDoc.translateToOriginal store dict text = text) := by
  refine ⟨?_, ?_, ?_⟩
  · intro h
    rw [MappingsDoc.bwdStep, if_pos (by simp [h])]
  · intro h
    rw [MappingsDoc.bwdStep, if_pos (by simp [h])]
  · intro h
    rw [MappingsDoc.translateToOriginal,
      mappingsDoc_bwdGo_id store dict (tokenize text) h 0, tokenize_join]

/-- Closed witness for C5: the keyword `for` survives a step of the
keyword-protected backward translator even when the store maps it. -/
theorem c5_protected_keywords_pass_through_witness :
    MappingsDoc.bwdStep
      (addTerm emptyStore "x".toList "for".toList 0 "for_1".toList) []
      0 "for".toList = "for".toList :=
  (c5_protected_keywords_pass_through
    (addTerm emptyStore "x".toList "for".toList 0 "for_1".toList) [] 0
    "for".toList []).1 (by decide)

/-- C6: during `rebuildMap(lastTranslated, original, current)` a compound
record survives iff its translated text occurs as a token somewhere in
the current text (its currentText position set is non-empty); every
compound whose translated text does not occur is pruned and its store
entries removed.  (The hypothesis excludes records with an empty stored
original, which `getAllCompounds` drops as malformed before the
decision.) -/
theorem c6_rebuild_compound_survival (st : Store) (lt ot ct : Str)
    (id : Str) (cr : CompoundRec) (hwf : cr.original ≠ []) :
    ((id, cr) ∈ (rebuildMap st lt ot ct).compounds ↔
      (id, cr) ∈ st.compounds ∧ cr.translated ∈ tokenize ct) := by
  rw [rebuildMap]
  simp only [List.mem_filter, getAllCompounds, decide_eq_true_eq]
  constructor
  · rintro ⟨⟨hmem, _⟩, hpos⟩
    exact ⟨hmem, (assignPositions_mem (tokenize ct) cr.translated).mp hpos⟩
  · rintro ⟨hmem, htok⟩
    exact ⟨⟨hmem, by simpa using hwf⟩,
      (assignPositions_mem (tokenize ct) cr.translated).mpr htok⟩

/-- Closed witness for C6: a compound whose translated form occurs in the
current text survives the rebuild. -/
theorem c6_rebuild_compound_survival_witness :
    (("compound_1".toList, (⟨"ab".toList, "cd".toList, ["c_1".toList], 0⟩ : CompoundRec)) ∈
        (rebuildMap
          ⟨[], [("compound_1".toList, ⟨"ab".toList, "cd".toList, ["c_1".toList], 0⟩)], [], 1⟩
          "cd".toList "ab".toList "x cd".toList).compounds ↔
      (("compound_1".toList, (⟨"ab".toList, "cd".toList, ["c_1".toList], 0⟩ : CompoundRec)) ∈
        [("compound_1".toList, (⟨"ab".toList, "cd".toList, ["c_1".toList], 0⟩ : CompoundRec))] ∧
        "cd".toList ∈ tokenize "x cd".toList)) :=
  c6_rebuild_compound_survival
    ⟨[], [("compound_1".toList, ⟨"ab".toList, "cd".toList, ["c_1".toList], 0⟩)], [], 1⟩
    "cd".toList "ab".toList "x cd".toList "compound_1".toList
    ⟨"ab".toList, "cd".toList, ["c_1".toList], 0⟩ (by decide)

theorem mem_updA {β : Type} (l : List (Str × β)) (key : Str) (v : β) :
    ∀ p ∈ updA l key v, p ∈ l ∨ p = (key, v) := by
  induction l with
  | nil =>
    intro p hp
    simp [updA] at hp
    exact Or.inr hp
  | cons q rest ih =>
    intro p hp
    rw [updA] at hp
    by_cases hq : q.1 = key
    · rw [if_pos hq] at hp
      simp only [List.mem_cons] at hp
      rcases hp with hp | hp
      · exact Or.inr hp
      · exact Or.inl (by simp [hp])
    · rw [if_neg hq] at hp
      simp only [List.mem_cons] at hp
      rcases hp with hp | hp
      · exact Or.inl (by simp [hp])
      · rcases ih p hp with h | h
        · exact Or.inl (by simp [h])
        · exact Or.inr h


theorem lookupA_delA {β : Type} (l : List (Str × β)) (key c : Str) :
    lookupA (delA l key) c = if c = key then none else lookupA l c := by
  induction l with
  | nil =>
    rw [delA, List.filter_nil]
    by_cases hc : c = key <;> simp [lookupA, hc]
  | cons q rest ih =>
    by_cases hq : q.1 = key
    · have hstep : delA (q :: rest) key = delA rest key := by
        simp [delA, List.filter, hq]
      rw [hstep, ih]
      by_cases hc : c = key
      · rw [if_pos hc, if_pos hc]
      · rw [if_neg hc, if_neg hc, lookupA, if_neg (fun he => hc (by rw [← he, hq]))]
    · have hstep : delA (q :: rest) key = q :: delA rest key := by
        simp [delA, List.filter, hq]
      rw [hstep, lookupA, lookupA, ih]
      by_cases hqc : q.1 = c
      · rw [if_pos hqc, if_pos hqc, if_neg (fun hck => hq (hqc.trans hck))]
      · rw [if_neg hqc, if_neg hqc]

/-- A single unlink step preserves nonemptiness of all retained part
lists: a compound updated to an empty part list is deleted in the same
step. -/
theorem removeUnlinkStep_inv (AC : List (Str × CompoundRec)) (identifier : Str)
    (acc : Store) (cid : Str)
    (h : ∀ p ∈ acc.compounds, p.2.parts ≠ []) :
    ∀ p ∈ (removeUnlinkStep AC identifier acc cid).compounds, p.2.parts ≠ [] := by
  intro p hp
  rw [removeUnlinkStep] at hp
  cases hsnap : lookupA AC cid with
  | none =>
    rw [hsnap] at hp
    exact h p hp
  | some comp =>
    rw [hsnap] at hp
    simp only at hp
    by_cases hup : comp.parts.filter (fun q => decide (q ≠ identifier)) = []
    · rw [if_pos hup] at hp
      simp only [delA, List.mem_filter] at hp
      cases hacc : lookupA acc.compounds cid with
      | some cur =>
        rw [hacc] at hp
        simp only at hp
        rcases mem_updA _ _ _ p hp.1 with hm | hm
        · exact h p hm
        · exfalso
          have hp1 : p.1 = cid := by rw [hm]
          have := hp.2
          rw [hp1] at this
          simp at this
      | none =>
        rw [hacc] at hp
        exact h p hp.1
    · rw [if_neg hup] at hp
      cases hacc : lookupA acc.compounds cid with
      | some cur =>
        rw [hacc] at hp
        simp only at hp
        rcases mem_updA _ _ _ p hp with hm | hm
        · exact h p hm
        · rw [hm]
          simpa using hup
      | none =>
        rw [hacc] at hp
        exact h p hp

/-- A single unlink step never creates a compound entry or an index
entry: absent keys stay absent. -/
theorem removeUnlinkStep_none (AC : List (Str × CompoundRec)) (identifier : Str)
    (acc : Store) (cid y tkey : Str)
    (hc : lookupA acc.compounds cid = none)
    (ht : lookupA acc.transToCompound tkey = none) :
    lookupA (removeUnlinkStep AC identifier acc y).compounds cid = none ∧
    lookupA (removeUnlinkStep AC identifier acc y).transToCompound tkey = none := by
  rw [removeUnlinkStep]
  cases hsnap : lookupA AC y with
  | none => exact ⟨hc, ht⟩
  | some comp =>
    simp only
    cases hacc : lookupA acc.compounds y with
    | some cur =>
      have hcy : ¬(cid = y) := by
        intro he
        rw [he, hacc] at hc
        cases hc
      by_cases hup : comp.parts.filter (fun q => decide (q ≠ identifier)) = []
      · rw [if_pos hup]
        constructor
        · simp only [lookupA_delA, if_neg hcy]
          rw [lookupA_updA_ne _ _ _ _ hcy]
          exact hc
        · simp only [lookupA_delA]
          by_cases htk : tkey = comp.translated
          · rw [if_pos htk]
          · rw [if_neg htk]
            exact ht
      · rw [if_neg hup]
        constructor
        · rw [lookupA_updA_ne _ _ _ _ hcy]
          exact hc
        · exact ht
    | none =>
      by_cases hup : comp.parts.filter (fun q => decide (q ≠ identifier)) = []
      · rw [if_pos hup]
        constructor
        · simp only [lookupA_delA]
          by_cases hcy : cid = y
          · rw [if_pos hcy]
          · rw [if_neg hcy]
            exact hc
        · simp only [lookupA_delA]
          by_cases htk : tkey = comp.translated
          · rw [if_pos htk]
          · rw [if_neg htk]
            exact ht
      · rw [if_neg hup]
        exact ⟨hc, ht⟩

theorem unlinkFold_inv (AC : List (Str × CompoundRec)) (identifier : Str)
    (ids : List Str) :
    ∀ acc : Store, (∀ p ∈ acc.compounds, p.2.parts ≠ []) →
      ∀ p ∈ (ids.foldl (removeUnlinkStep AC identifier) acc).compounds,
        p.2.parts ≠ [] := by
  induction ids with
  | nil => exact fun acc h => h
  | cons x rest ih =>
    intro acc h
    rw [List.foldl_cons]
    exact ih _ (removeUnlinkStep_inv AC identifier acc x h)

theorem unlinkFold_none (AC : List (Str × CompoundRec)) (identifier : Str)
    (ids : List Str) (cid tkey : Str) :
    ∀ acc : Store, lookupA acc.compounds cid = none →
      lookupA acc.transToCompound tkey = none →
      lookupA (ids.foldl (removeUnlinkStep AC identifier) acc).compounds cid = none ∧
      lookupA (ids.foldl (removeUnlinkStep AC identifier) acc).transToCompound tkey =
        none := by
  induction ids with
  | nil => exact fun acc hc ht => ⟨hc, ht⟩
  | cons x rest ih =>
    intro acc hc ht
    rw [List.foldl_cons]
    have := removeUnlinkStep_none AC identifier acc cid x tkey hc ht
    exact ih _ this.1 this.2

theorem unlinkFold_deletes (AC : List (Str × CompoundRec)) (identifier : Str)
    (ids : List Str) (cid : Str) (comp : CompoundRec)
    (hsnap : lookupA AC cid = some comp)
    (hempty : comp.parts.filter (fun q => decide (q ≠ identifier)) = []) :
    ∀ acc : Store, cid ∈ ids →
      lookupA (ids.foldl (removeUnlinkStep AC identifier) acc).compounds cid = none ∧
      lookupA (ids.foldl
        (removeUnlinkStep AC identifier) acc).transToCompound comp.translated = none := by
  induction ids with
  | nil =>
    intro acc hmem
    cases hmem
  | cons x rest ih =>
    intro acc hmem
    rw [List.foldl_cons]
    by_cases hx : cid = x
    · subst hx
      have hstep : lookupA (removeUnlinkStep AC identifier acc cid).compounds cid = none ∧
          lookupA (removeUnlinkStep AC identifier acc cid).transToCompound
            comp.translated = none := by
        rw [removeUnlinkStep, hsnap]
        simp only [hempty, if_pos]
        cases hacc : lookupA acc.compounds cid with
        | some cur => exact ⟨by simp [lookupA_delA], by simp [lookupA_delA]⟩
        | none => exact ⟨by simp [lookupA_delA], by simp [lookupA_delA]⟩
      exact unlinkFold_none AC identifier rest cid comp.translated _ hstep.1 hstep.2
    · have hmem' : cid ∈ rest := by
        rcases List.mem_cons.mp hmem with h | h
        · exact absurd h hx
        · exact h
      exact ih _ hmem'

theorem removeShiftStep_compounds (coreTerm : Str) (acc : Store) (x : Str × Nat) :
    (removeShiftStep coreTerm acc x).compounds = acc.compounds ∧
    (removeShiftStep coreTerm acc x).transToCompound = acc.transToCompound := by
  rw [removeShiftStep]
  cases lookupA acc.terms x.1 <;> exact ⟨rfl, rfl⟩

theorem shiftFold_compounds (coreTerm : Str) (xs : List (Str × Nat)) :
    ∀ acc : Store,
      (xs.foldl (removeShiftStep coreTerm) acc).compounds = acc.compounds ∧
      (xs.foldl (removeShiftStep coreTerm) acc).transToCompound =
        acc.transToCompound := by
  induction xs with
  | nil => exact fun acc => ⟨rfl, rfl⟩
  | cons x rest ih =>
    intro acc
    rw [List.foldl_cons]
    have h1 := removeShiftStep_compounds coreTerm acc x
    have h2 := ih (removeShiftStep coreTerm acc x)
    exact ⟨h2.1.trans h1.1, h2.2.trans h1.2⟩

theorem addCompound_linkFold_compounds (compoundId : Str) (partIds : List Str) :
    ∀ acc : Store,
      (partIds.foldl
        (fun acc partId =>
          match lookupA acc.terms partId with
          | some r =>
            if compoundId ∈ r.compoundIds then acc
            else
              let r2 : TermRec := { r with compoundIds := r.compoundIds ++ [compoundId] }
              { acc with terms := updA acc.terms partId r2 }
          | none => acc) acc).compounds = acc.compounds := by
  induction partIds with
  | nil => exact fun acc => rfl
  | cons x rest ih =>
    intro acc
    rw [List.foldl_cons]
    have hstep : ∀ acc : Store,
        (match lookupA acc.terms x with
         | some r =>
           if compoundId ∈ r.compoundIds then acc
           else
             let r2 : TermRec := { r with compoundIds := r.compoundIds ++ [compoundId] }
             { acc with terms := updA acc.terms x r2 }
         | none => acc).compounds = acc.compounds := by
      intro acc
      cases lookupA acc.terms x with
      | some r =>
        by_cases hc : compoundId ∈ r.compoundIds
        · simp only [if_pos hc]
        · simp only [if_neg hc]
      | none => rfl
    rw [ih _, hstep acc]

/-- C9: the store-mutating operations preserve the invariant that every
retained compound record has a non-empty part list: in particular
`removeTermPictographic` deletes (rather than retains) a compound left
with zero parts, together with its translated-to-compound index entry,
and `addCompound` with a non-empty part list preserves the invariant. -/
theorem c9_store_ops_preserve_nonempty_compounds (st : Store) (identifier : Str)
    (pos : Nat) (hinv : ∀ p ∈ st.compounds, p.2.parts ≠ []) :
    (∀ p ∈ (removeTermPictographic st identifier pos).compounds, p.2.parts ≠ []) ∧
    (∀ cid ∈ getCompoundIds st identifier, ∀ comp : CompoundRec,
      lookupA (getAllCompounds st) cid = some comp →
      comp.parts.filter (fun q => decide (q ≠ identifier)) = [] →
      lookupA (removeTermPictographic st identifier pos).compounds cid = none ∧
      lookupA (removeTermPictographic st identifier pos).transToCompound
        comp.translated = none) ∧
    (∀ (o t : Str) (partIds : List Str) (p0 : Nat), partIds ≠ [] →
      ∀ p ∈ (addCompound st o t partIds p0).1.compounds, p.2.parts ≠ []) := by
  have hcomp : (removeTermPictographic st identifier pos).compounds =
      ((getCompoundIds st identifier).foldl
        (removeUnlinkStep (getAllCompounds st) identifier) st).compounds := by
    simp only [removeTermPictographic]
    rw [(shiftFold_compounds _ _ _).1]
  have htrans : (removeTermPictographic st identifier pos).transToCompound =
      ((getCompoundIds st identifier).foldl
        (removeUnlinkStep (getAllCompounds st) identifier) st).transToCompound := by
    simp only [removeTermPictographic]
    rw [(shiftFold_compounds _ _ _).2]
  refine ⟨?_, ?_, ?_⟩
  · rw [hcomp]
    exact unlinkFold_inv (getAllCompounds st) identifier
      (getCompoundIds st identifier) st hinv
  · intro cid hmem comp hsnap hempty
    rw [hcomp, htrans]
    exact unlinkFold_deletes (getAllCompounds st) identifier
      (getCompoundIds st identifier) cid comp hsnap hempty st hmem
  · intro o t partIds p0 hne p hp
    rw [addCompound] at hp
    simp only at hp
    rw [addCompound_linkFold_compounds] at hp
    rcases mem_updA _ _ _ p hp with hm | hm
    · exact hinv p hm
    · rw [hm]
      simpa using hne

/-- Closed witness for C9: removing the only part of a single-part
compound deletes the compound record and its index entry. -/
theorem c9_store_ops_preserve_nonempty_compounds_witness :
    lookupA
      (removeTermPictographic
        ⟨[("x_1".toList, ⟨"x".toList, "x".toList, 0, ["compound_1".toList]⟩)],
         [("compound_1".toList, ⟨"x".toList, "x".toList, ["x_1".toList], 0⟩)],
         [("x".toList, "compound_1".toList)], 1⟩
        "x_1".toList 0).compounds "compound_1".toList = none :=
  ((c9_store_ops_preserve_nonempty_compounds
    ⟨[("x_1".toList, ⟨"x".toList, "x".toList, 0, ["compound_1".toList]⟩)],
     [("compound_1".toList, ⟨"x".toList, "x".toList, ["x_1".toList], 0⟩)],
     [("x".toList, "compound_1".toList)], 1⟩
    "x_1".toList 0 (by decide)).2.1
    "compound_1".toList (by decide)
    ⟨"x".toList, "x".toList, ["x_1".toList], 0⟩ (by decide) (by decide)).1

/-! ### C2: the identifier scheme of translateToTarget -/

/-- The identifier formula exactly as claim C2 words it for a recorded
term: base is the translated text lower-cased when the detected script is
latin (verbatim otherwise), and n is 1 plus the number of
case-insensitive matches of base in `emittedBefore`, the concatenation of
the output tokens emitted before the current token. -/
def claimIdC2 (script : Script) (translated : Str) (emittedBefore : Str)
    (ty : Bool) : Str :=
  let base := if script = .latin then lowerStr translated else translated
  mkId base (countCI base emittedBefore + 1) ty

/-- The translation chosen for one compound part (the dictionary scan of
the part loop): the case-matched first hit, else the part itself. -/
def fwdPartTarget (dict : Dict) (part : Str) : Str :=
  match dictFindFull dict part with
  | some e => matchCase part e.1
  | none => part

/-- C2 as stated fails on the code: translating `fooFoo` with an empty
dictionary records its two compound parts as `foo_1` and `foo_2`, yet no
output token has been emitted before the token `fooFoo`, so the claim's
formula predicts `foo_1` for the second part (whose translated text is
`Foo`) as well.  The code counts the already-translated parts of the
current token in addition to the emitted output. -/
theorem c2_identifier_scheme_counterexample :
    (translateToTarget "fooFoo".toList []).store.terms.map Prod.fst =
      ["foo_1".toList, "foo_2".toList] ∧
    (translateToTarget "fooFoo".toList []).store.terms.map
      (fun p => p.2.translated) = ["foo".toList, "Foo".toList] ∧
    "foo_2".toList ≠ claimIdC2 Script.latin "Foo".toList [] false ∧
    claimIdC2 Script.latin "Foo".toList [] false = "foo_1".toList := by
  refine ⟨by decide, by decide, by decide, by decide⟩

/-- C2 amended: every term recorded by a `translateToTarget` step carries
the claim's identifier `base_n[_type]`, with the counted prefix being the
emitted output for full-dictionary hits and identity terms, and the
emitted output plus the already-translated parts of the current token for
compound parts; the `_type` suffix applies only to full-dictionary-hit
terms (in annotation position), never to compound parts or identity
terms. -/
theorem c2_identifier_scheme_amended :
    (∀ (script : Script) (prev : Option Str) (st : FwdState) (token : Str)
        (e : Str × List Str),
      token.any (fun c => !(isWordChar c)) = false →
      dictFindFull st.dict token = some e →
      (fwdStep script prev st token).store.terms =
        updA st.store.terms
          (claimIdC2 script (matchCase token e.1) (joinStr st.out)
            (prevIsColonArrow prev))
          ⟨(e.2.find? (fun t => t == token)).getD (e.2.headD []),
            matchCase token e.1, st.pos, []⟩) ∧
    (∀ (script : Script) (prev : Option Str) (st : FwdState) (token : Str),
      token.any (fun c => !(isWordChar c)) = false →
      dictFindFull st.dict token = none →
      (splitCompound token).length ≤ 1 →
      (fwdStep script prev st token).store.terms =
        updA st.store.terms (claimIdC2 script token (joinStr st.out) false)
          ⟨token, token, st.pos, []⟩) ∧
    (∀ (script : Script) (outPrefix : Str) (ps : PartState) (part : Str),
      (fwdPart script outPrefix ps part).store.terms =
        updA ps.store.terms
          (claimIdC2 script (fwdPartTarget ps.dict part)
            (outPrefix ++ joinStr ps.targets) false)
          ⟨part, fwdPartTarget ps.dict part, ps.partPos, []⟩) := by
  refine ⟨?_, ?_, ?_⟩
  · intro script prev st token e hany hdict
    rw [fwdStep]
    rw [hany]
    simp only [Bool.false_eq_true, if_false, hdict]
    rfl
  · intro script prev st token hany hdict hparts
    rw [fwdStep]
    rw [hany]
    simp only [Bool.false_eq_true, if_false, hdict]
    have hnot : ¬(1 < (splitCompound token).length) := by omega
    simp only [if_neg hnot]
    rfl
  · intro script outPrefix ps part
    rw [fwdPart, fwdPartTarget]
    cases hf : dictFindFull ps.dict part <;> rfl

/-- Closed witness for C2 (amended), full-hit clause at a concrete
state. -/
theorem c2_identifier_scheme_amended_witness :
    (fwdStep Script.latin none
      ⟨[], emptyStore, [("hallo".toList, ["hello".toList])], false, 0⟩
      "hello".toList).store.terms =
      updA emptyStore.terms
        (claimIdC2 Script.latin
          (matchCase "hello".toList "hallo".toList) (joinStr []) false)
        ⟨"hello".toList, matchCase "hello".toList "hallo".toList, 0, []⟩ :=
  c2_identifier_scheme_amended.1 Script.latin none
    ⟨[], emptyStore, [("hallo".toList, ["hello".toList])], false, 0⟩
    "hello".toList ("hallo".toList, ["hello".toList]) (by decide) (by decide)

/-! ### C4: the backward resolution order -/

/-- C4 as stated fails on the code: with an empty store and the
dictionary mapping `zeichenkette` to first synonym `string`, translating
`x:zeichenkette` back produces `x:str` - the dictionary stage does not
yield the key's first synonym for an annotation-position `zeichenkette`
(a hardcoded case), so the output differs from the claim's `x:string`. -/
theorem c4_ordered_fallback_counterexample :
    translateToOriginal emptyStore [("zeichenkette".toList, ["string".toList])]
      "x:zeichenkette".toList = "x:str".toList ∧
    ("x:str".toList : Str) ≠ "x:string".toList ∧
    (bwdDictFind [("zeichenkette".toList, ["string".toList])] true
      "zeichenkette".toList).map (fun e => e.2.headD []) = some "string".toList := by
  refine ⟨by decide, by decide, by decide⟩

theorem matchCase_ne_nil (source target : Str) (h : target ≠ []) :
    matchCase source target ≠ [] := by
  cases source with
  | nil =>
    cases target with
    | nil => exact h
    | cons t ts => simp [matchCase]
  | cons s ss =>
    cases target with
    | nil => exact h
    | cons t ts =>
      simp only [matchCase]
      split
      · simp
      · split
        · simp
        · simp

theorem getAllTerms_snd_ne_nil (st : Store) :
    ∀ p ∈ getAllTerms st, p.2 ≠ [] := by
  intro p hp
  rw [getAllTerms] at hp
  rw [List.mem_filterMap] at hp
  obtain ⟨q, _, hq⟩ := hp
  by_cases h0 : q.2.original = []
  · rw [if_pos h0] at hq
    cases hq
  · rw [if_neg h0] at hq
    by_cases h1 : strIncludes ("compound_".toList) q.1 = true
    · rw [if_pos h1] at hq
      cases hq
    · rw [if_neg h1] at hq
      cases hq
      exact h0

theorem findMappedTerm_snd_ne_nil (st : Store) (isLatin : Bool) (dictTerm : Str)
    (p : Str × Str) (h : findMappedTerm st isLatin dictTerm = some p) : p.2 ≠ [] := by
  rw [findMappedTerm] at h
  exact getAllTerms_snd_ne_nil st p (List.mem_of_find?_eq_some h)

/-- C4 amended: the backward word-token resolution is the ordered
fallback compound then exact identifier (annotation-appropriate variant
first, the other variant second) then dictionary then identity, with
earlier matches strictly preferred - except that the dictionary stage
yields, in order: the case-matched hardcoded `str` when the token
lower-cases to `zeichenkette` in annotation position; else the stored
original of the first store term whose translated text matches the
dictionary key; else the key's first synonym (an empty synonym degrading
to the token itself). -/
theorem c4_ordered_fallback_amended (store : Store) (dict : Dict) (isLatin : Bool)
    (first : Bool) (textBefore token : Str) :
    (∀ cid comp, getCompoundByTranslated store token = some cid →
      lookupA (getAllCompounds store) cid = some comp →
      bwdResolve store dict isLatin first textBefore token = comp.original) ∧
    ((getCompoundByTranslated store token).bind
        (fun cid => lookupA (getAllCompounds store) cid) = none →
      (let isType := !first && typeCheckBefore textBefore
       let idBase := if isLatin then lowerStr token else token
       let occ := countCI idBase textBefore
       let typeId := mkId idBase (occ + 1) true
       let regId := mkId idBase (occ + 1) false
       (∀ orig, bwdIdentHit store isType typeId regId = some orig →
         bwdResolve store dict isLatin first textBefore token =
           (if isLatin then matchCase token orig else orig)) ∧
       (bwdIdentHit store isType typeId regId = none →
         bwdResolve store dict isLatin first textBefore token =
           bwdDictResolve store dict isLatin isType token) ∧
       (∀ orig, (if isType then allTermsLookup store typeId
           else allTermsLookup store regId) = some orig →
         bwdIdentHit store isType typeId regId = some orig) ∧
       ((if isType then allTermsLookup store typeId
           else allTermsLookup store regId) = none →
         bwdIdentHit store isType typeId regId =
           (if isType then allTermsLookup store regId
            else allTermsLookup store typeId)))) ∧
    (∀ isType : Bool,
      (bwdDictFind dict isLatin token = none →
        bwdDictResolve store dict isLatin isType token = token) ∧
      (∀ e, bwdDictFind dict isLatin token = some e →
        (((lowerStr token == "zeichenkette".toList && isType) = true →
          bwdDictResolve store dict isLatin isType token =
            (if isLatin then matchCase token "str".toList else "str".toList)) ∧
        ((lowerStr token == "zeichenkette".toList && isType) = false →
          ∀ p, findMappedTerm store isLatin e.1 = some p →
            bwdDictResolve store dict isLatin isType token =
              (let tr := if isLatin then matchCase token p.2 else p.2
               if tr.isEmpty then token else tr)) ∧
        ((lowerStr token == "zeichenkette".toList && isType) = false →
          findMappedTerm store isLatin e.1 = none →
          bwdDictResolve store dict isLatin isType token =
            (let tr := if isLatin then matchCase token (e.2.headD [])
                       else e.2.headD []
             if tr.isEmpty then token else tr))))) := by
  refine ⟨?_, ?_, ?_⟩
  · intro cid comp hcid hcomp
    rw [bwdResolve]
    simp only [hcid, Option.some_bind, hcomp]
  · intro hnone
    simp only
    refine ⟨?_, ?_, ?_, ?_⟩
    · intro orig hhit
      rw [bwdResolve]
      simp only [hnone, hhit]
    · intro hhit
      rw [bwdResolve]
      simp only [hnone, hhit]
    · intro orig hprim
      rw [bwdIdentHit]
      simp only [hprim, Option.isSome_some, if_pos]
    · intro hprim
      rw [bwdIdentHit]
      simp only [hprim, Option.isSome_none, Bool.false_eq_true, if_false]
  · intro isType
    constructor
    · intro hnone
      rw [bwdDictResolve, hnone]
    · intro e he
      refine ⟨?_, ?_, ?_⟩
      · intro hz
        rw [bwdDictResolve, he]
        simp only [hz, if_pos]
        have hne : (if isLatin = true then matchCase token "str".toList
            else "str".toList) ≠ [] := by
          by_cases hl : isLatin = true
          · rw [if_pos hl]
            exact matchCase_ne_nil token "str".toList (by decide)
          · rw [if_neg hl]
            decide
        simp only [List.isEmpty_iff]
        rw [if_neg hne]
      · intro hz p hp
        rw [bwdDictResolve, he]
        simp only [hz, Bool.false_eq_true, if_false, hp]
      · intro hz hp
        rw [bwdDictResolve, he]
        simp only [hz, Bool.false_eq_true, if_false, hp]

/-- Closed witness for C4 (amended): the identity tail of the cascade at
an empty store and dictionary. -/
theorem c4_ordered_fallback_amended_witness :
    bwdDictResolve emptyStore [] true false "abc".toList = "abc".toList :=
  ((c4_ordered_fallback_amended emptyStore [] true true [] "abc".toList).2.2
    false).1 (by decide)

/-- C1 is refuted as stated: for `{"hallo": ["hello"]}` the text
`HELLO` translates forward to `Hallo` but back to `Hello` - the backward
pass restores the stored original (the first synonym, since the exact
case variant is not among the synonyms) and only transfers the case of
the first letter, so the all-caps casing is lost. -/
theorem c1_roundtrip_counterexample :
    translateToOriginal
        (translateToTarget ("HELLO".toList) [("hallo".toList, ["hello".toList])]).store
        [("hallo".toList, ["hello".toList])]
        (translateToTarget ("HELLO".toList) [("hallo".toList, ["hello".toList])]).output =
      "Hello".toList ∧
    "Hello".toList ≠ "HELLO".toList := by
  constructor
  · decide
  · decide

/-- The `compound_` filter of `getAllTerms` in action: a term registered
under base `compound` (identifier `compound_1`) is invisible to the
backward lookup, so the round trip degrades to the dictionary fallback's
first synonym.  Such bases are excluded from the amended C1 statement. -/
theorem getAllTerms_hides_compound_base :
    getAllTerms (translateToTarget ("mix".toList)
      [("compound".toList, ["blend".toList, "mix".toList])]).store = [] ∧
    translateToOriginal
        (translateToTarget ("mix".toList)
          [("compound".toList, ["blend".toList, "mix".toList])]).store
        [("compound".toList, ["blend".toList, "mix".toList])]
        (translateToTarget ("mix".toList)
          [("compound".toList, ["blend".toList, "mix".toList])]).output =
      "blend".toList ∧
    "blend".toList ≠ "mix".toList := by
  refine ⟨?_, ?_, ?_⟩
  · decide
  · decide
  · decide

theorem c1Emit_ascii (dict : Dict) (hd : c1DictOK dict) (t : Str) (h : c1TokOK t) :
    ∀ c ∈ c1Emit dict t, c.toNat < 128 := by
  obtain ⟨hne, hascii, hlow | hany⟩ := h
  · by_cases hany : t.any (fun c => !(isWordChar c)) = true
    · rw [c1Emit, if_pos hany]
      exact hascii
    · rw [c1Emit, if_neg hany]
      intro c hc
      exact lower_ascii ((emitOf_lower hd hne hlow).2 c hc)
  · rw [c1Emit, if_pos hany]
    exact hascii

/-- C1 (amended): the round trip
`translateToOriginal(translateToTarget(text, dict).output, dict)` does
reproduce `text` verbatim on the fragment the identifier machinery is
built for - ASCII texts whose word characters are lowercase `a`-`z`,
against dictionaries with nonempty lowercase keys and synonyms, with no
word token of the text and no dictionary key ending in the letters
`compound` (identifiers over such bases contain the substring
`compound_` and are hidden from the backward lookup by the
`!key.includes('compound_')` filter of `getAllTerms`).  In general the
claim fails for case variants (see the counterexample). -/
theorem c1_roundtrip_amended (text : Str) (dict : Dict)
    (h1 : ∀ c ∈ text, c.toNat < 128)
    (h2 : ∀ c ∈ text, isWordChar c = true → isLowerAZ c = true)
    (h3 : ∀ t ∈ tokenize text, strEnds ("compound".toList) t = false)
    (hd : c1DictOK dict)
    (h4 : ∀ e ∈ dict, strEnds ("compound".toList) e.1 = false) :
    translateToOriginal (translateToTarget text dict).store dict
      (translateToTarget text dict).output = text := by
  have hscript : detectScript text = .latin := detectScript_ascii h1
  have hok := tokens_ok text h1 h2
  have hwf := tokenize_wf text
  have hfwd := c1_fwd dict hd (tokenize text) none
    ⟨[], clearMap emptyStore, dict, false, 0⟩ hok rfl
    (fun p hp => absurd hp (List.not_mem_nil p))
  have hTT : translateToTarget text dict =
      ⟨joinStr ((tokenize text).map (c1Emit dict)),
       ⟨c1Spec dict (tokenize text) none [] 0, [], [], 0⟩, dict, false⟩ := by
    unfold translateToTarget
    rw [hscript]
    simp only [hfwd]
    simp [clearMap, emptyStore]
  rw [hTT]
  show translateToOriginal ⟨c1Spec dict (tokenize text) none [] 0, [], [], 0⟩ dict
      (joinStr ((tokenize text).map (c1Emit dict))) = text
  have hout_ascii : ∀ c ∈ joinStr ((tokenize text).map (c1Emit dict)),
      c.toNat < 128 := by
    intro c hc
    obtain ⟨s, hs, hcs⟩ := List.mem_flatten.mp hc
    obtain ⟨u, hu, hus⟩ := List.mem_map.mp hs
    rw [← hus] at hcs
    exact c1Emit_ascii dict hd u (hok u hu) c hcs
  have hscript_out : detectScript (joinStr ((tokenize text).map (c1Emit dict))) =
      .latin := detectScript_ascii hout_ascii
  have hwf_out : tokenWF ((tokenize text).map (c1Emit dict)) :=
    tokenWF_map_c1 dict hd (tokenize text) hwf hok
  have htok_out : tokenize (joinStr ((tokenize text).map (c1Emit dict))) =
      (tokenize text).map (c1Emit dict) := tokenize_wf_join _ hwf_out
  have hbwd := c1_bwd dict hd h4 (tokenize text) [] none [] 0 0
    (joinStr ((tokenize text).map (c1Emit dict))) hok h3 (by rw [List.nil_append])
    (fun p hp => absurd hp (List.not_mem_nil p))
  rw [List.nil_append] at hbwd
  simp only [List.length_nil] at hbwd
  unfold translateToOriginal
  rw [hscript_out, htok_out]
  show joinStr (bwdGo ⟨c1Spec dict (tokenize text) none [] 0, [], [], 0⟩ dict true
      (joinStr ((tokenize text).map (c1Emit dict))) 0 0
      ((tokenize text).map (c1Emit dict))) = text
  rw [hbwd]
  exact tokenize_join text

theorem c1_roundtrip_amended_witness :
    (∀ c ∈ "hello world".toList, c.toNat < 128) ∧
    (∀ c ∈ "hello world".toList, isWordChar c = true → isLowerAZ c = true) ∧
    (∀ t ∈ tokenize ("hello world".toList), strEnds ("compound".toList) t = false) ∧
    c1DictOK [("hallo".toList, ["hello".toList]), ("welt".toList, ["world".toList])] ∧
    (∀ e ∈ ([("hallo".toList, ["hello".toList]), ("welt".toList, ["world".toList])] : Dict), strEnds ("compound".toList) e.1 = false) ∧
    translateToOriginal
        (translateToTarget ("hello world".toList) [("hallo".toList, ["hello".toList]), ("welt".toList, ["world".toList])]).store
        [("hallo".toList, ["hello".toList]), ("welt".toList, ["world".toList])]
        (translateToTarget ("hello world".toList) [("hallo".toList, ["hello".toList]), ("welt".toList, ["world".toList])]).output =
      "hello world".toList :=
  ⟨by decide, by decide, by decide, by unfold c1DictOK; decide, by decide,
    c1_roundtrip_amended ("hello world".toList) [("hallo".toList, ["hello".toList]), ("welt".toList, ["world".toList])]
      (by decide) (by decide) (by decide) (by unfold c1DictOK; decide) (by decide)⟩
